import Mathlib

set_option maxRecDepth 40000

/-!
Verification of the LSM key-value storage engine core (WAL, memtable,
data block, Bloom filter) against its specification.

The Rust sources are shallowly embedded:
* bytes are `Nat` values (`< 256` where byte-ness matters, stated as
  hypotheses);
* `u32`/`u64` wrapping arithmetic is `Nat` arithmetic with explicit
  `% 2^32` / `% 2^64` (the little-endian codec `le32` truncates to
  `2^32` by construction, exactly as the `as u32` casts do);
* `usize` subtraction that the source relies on to wrap (release-build
  two's-complement semantics) is `usizeSub`; other size arithmetic,
  where the source never comes near `2^64`, is plain `Nat`;
* fallible functions land in `Except`; functions that can reach an
  out-of-bounds index or slice (a Rust panic) land in `RRes`, whose
  `panik` constructor marks exactly those program points.
-/

/-- Result of running a fallible Rust function: success, a returned
error, or a panic (out-of-bounds index/slice, division by zero). -/
inductive RRes (ε α : Type) where
  | ok : α → RRes ε α
  | err : ε → RRes ε α
  | panik : RRes ε α
deriving DecidableEq, Repr

/-- Byte strings: lists of naturals (each `< 256` for genuine bytes). -/
abbrev Bytes := List Nat

/-- Rust slice indexing `s[a..b]` (defined when `a ≤ b ≤ s.len()`). -/
def bslice (l : Bytes) (a b : Nat) : Bytes := (l.drop a).take (b - a)

/-- `u32::from_le_bytes([a,b,c,d])`. -/
def fromLe32 (a b c d : Nat) : Nat := a + 256 * b + 65536 * c + 16777216 * d

/-- `u32::from_le_bytes` on the first four entries of a list. -/
def fromLe32l (l : Bytes) : Nat :=
  fromLe32 (l.getD 0 0) (l.getD 1 0) (l.getD 2 0) (l.getD 3 0)

/-- `(n as u32).to_le_bytes()`: little-endian bytes of `n % 2^32`. -/
def le32 (n : Nat) : Bytes :=
  [n % 256, n / 256 % 256, n / 65536 % 256, n / 16777216 % 256]

@[simp] theorem le32_length (n : Nat) : (le32 n).length = 4 := rfl

theorem fromLe32l_le32 (n : Nat) (rest : Bytes) :
    fromLe32l (le32 n ++ rest) = n % 4294967296 := by
  simp [fromLe32l, le32, fromLe32, List.getD]
  omega

theorem fromLe32l_le32' (n : Nat) : fromLe32l (le32 n) = n % 4294967296 := by
  have := fromLe32l_le32 n []
  simpa using this

/-- `usize` subtraction with release-build wrapping semantics
(two's complement, modulo `2^64`).  The block reader relies on the
wrap to detect a malformed restart count. -/
def usizeSub (a b : Nat) : Nat :=
  if b ≤ a then a - b else a + 18446744073709551616 - b

theorem usizeSub_of_le {a b : Nat} (h : b ≤ a) : usizeSub a b = a - b := by
  simp [usizeSub, h]

/-! ### Write-ahead log (`src/lsm/wal.rs`) -/

/-- WAL entries (`WalEntry`). -/
inductive WalEntry where
  | put : Bytes → Bytes → WalEntry
  | del : Bytes → WalEntry
deriving DecidableEq, Repr

/-- WAL errors (`WalError`).  Reading a pure in-memory stream can only
produce the `UnexpectedEof` I/O error, recorded as its kind string. -/
inductive WalError where
  | ioErr : String → WalError
  | corrupted : String → WalError
deriving DecidableEq, Repr

/-- One round of the bitwise CRC-32 inner loop (`crc32`, body of
`for _ in 0..8`). -/
def crcRound (c : Nat) : Nat :=
  if c &&& 1 ≠ 0 then (c >>> 1) ^^^ 0xEDB88320 else c >>> 1

/-- Processing one input byte of `crc32`: xor it in, then eight rounds. -/
def crcByte (c b : Nat) : Nat := crcRound^[8] (c ^^^ b)

/-- `crc32` from `wal.rs`: init `0xFFFFFFFF`, reflected polynomial
`0xEDB88320`, final complement (xor with `0xFFFFFFFF`). -/
def crc32 (data : Bytes) : Nat :=
  (data.foldl crcByte 0xFFFFFFFF) ^^^ 0xFFFFFFFF

/-- `encode_entry`.  The source returns `Ok(bytes)` unconditionally, so
the embedding returns the bytes directly.  `payload_size - 4 = 9 +
key.len() + value.len()`; all `as u32` casts are performed by `le32`. -/
def encode_entry (e : WalEntry) : Bytes :=
  let op : Nat := match e with | .put _ _ => 1 | .del _ => 2
  let key : Bytes := match e with | .put k _ => k | .del k => k
  let value : Bytes := match e with | .put _ v => v | .del _ => []
  let payload := le32 (9 + key.length + value.length) ++ [op] ++
    le32 key.length ++ le32 value.length ++ key ++ value
  le32 (crc32 (payload.drop 4)) ++ payload

/-- `Read::read_exact` on an in-memory stream: take `n` bytes or fail
with `UnexpectedEof`. -/
def readExact (s : Bytes) (n : Nat) : Option (Bytes × Bytes) :=
  if n ≤ s.length then some (s.take n, s.drop n) else none

/-- Declared key length of a decoded WAL payload (`payload[1..5]`). -/
def walKeyLen (payload : Bytes) : Nat :=
  fromLe32 (payload.getD 1 0) (payload.getD 2 0) (payload.getD 3 0) (payload.getD 4 0)

/-- Declared value length of a decoded WAL payload (`payload[5..9]`). -/
def walValLen (payload : Bytes) : Nat :=
  fromLe32 (payload.getD 5 0) (payload.getD 6 0) (payload.getD 7 0) (payload.getD 8 0)

/-- `decode_entry`, on a byte stream.  Returns the decoded entry (or
`none` at clean EOF) together with the remaining stream.  `panik`
marks the source's unchecked `payload[...]` indexing and slicing. -/
def decode_entry (s : Bytes) : RRes WalError (Option WalEntry × Bytes) :=
  match readExact s 4 with
  | none => .ok (none, s)
  | some (checksum_buf, s1) =>
    let expected := fromLe32l checksum_buf
    match readExact s1 4 with
    | none => .err (.ioErr "UnexpectedEof")
    | some (len_buf, s2) =>
      let length := fromLe32l len_buf
      match readExact s2 length with
      | none => .err (.ioErr "UnexpectedEof")
      | some (payload, s3) =>
        let actual := crc32 payload
        if actual ≠ expected then
          .err (.corrupted ("Checksum mismatch: expected " ++ toString expected ++
            ", got " ++ toString actual))
        else if payload.length < 1 then .panik
        else
          let op_type := payload.getD 0 0
          if payload.length < 5 then .panik
          else
            let key_len := walKeyLen payload
            if payload.length < 9 then .panik
            else
              let val_len := walValLen payload
              if payload.length < 9 + key_len then .panik
              else
                let key := bslice payload 9 (9 + key_len)
                if op_type = 1 then
                  if payload.length < 9 + key_len + val_len then .panik
                  else .ok (some (.put key (bslice payload (9 + key_len) (9 + key_len + val_len))), s3)
                else if op_type = 2 then .ok (some (.del key), s3)
                else .err (.corrupted ("Unknown operation type: " ++ toString op_type))

/-- Repeated `WalReader::next` until clean EOF, an error, or a panic.
`fuel` only bounds the recursion; `walReadAll` supplies more fuel than
a stream of that length can consume. -/
def readAllF : Nat → Bytes → RRes WalError (List WalEntry)
  | 0, _ => .ok []
  | fuel + 1, s =>
    match decode_entry s with
    | .ok (none, _) => .ok []
    | .ok (some e, s') =>
      match readAllF fuel s' with
      | .ok es => .ok (e :: es)
      | r => r
    | .err e => .err e
    | .panik => .panik

/-- The sequence of entries the WAL reader recovers from a segment. -/
def walReadAll (s : Bytes) : RRes WalError (List WalEntry) :=
  readAllF (s.length + 1) s

/-- Byte-level well-formedness of a WAL entry: key and value consist of
bytes, and the record fits the `u32` length fields. -/
def WalEntry.wf : WalEntry → Prop
  | .put k v => (∀ b ∈ k, b < 256) ∧ (∀ b ∈ v, b < 256) ∧ 9 + k.length + v.length < 4294967296
  | .del k => (∀ b ∈ k, b < 256) ∧ 9 + k.length < 4294967296

instance : DecidablePred WalEntry.wf := fun e => by
  cases e <;> simp [WalEntry.wf] <;> infer_instance

/-! ### Byte-string ordering (Rust `Ord` on `&[u8]`) -/

/-- Lexicographic three-way comparison of byte strings, as Rust's
`Ord::cmp` on slices: elementwise, then by length. -/
def bytesCmp : Bytes → Bytes → Ordering
  | [], [] => .eq
  | [], _ :: _ => .lt
  | _ :: _, [] => .gt
  | a :: as, b :: bs => if a < b then .lt else if b < a then .gt else bytesCmp as bs

/-! ### Memtable (`src/lsm/memtable.rs`) -/

/-- `MemtableEntry`: optional value (`none` is a tombstone) plus the
sequence number of the writing operation. -/
structure MemtableEntry where
  value : Option Bytes
  seq_num : Nat
deriving DecidableEq, Repr

/-- `Memtable`.  The `BTreeMap` is modelled as an association list kept
strictly sorted by `bytesCmp`, which is how the claims observe it. -/
structure Memtable where
  data : List (Bytes × MemtableEntry)
  size : Nat
  max_size : Nat
  seq_num : Nat
deriving DecidableEq, Repr

/-- `BTreeMap::insert`: replace an existing binding or insert at the
ordered position. -/
def btreeInsert (l : List (Bytes × MemtableEntry)) (k : Bytes) (e : MemtableEntry) :
    List (Bytes × MemtableEntry) :=
  match l with
  | [] => [(k, e)]
  | (k', e') :: t =>
    match bytesCmp k k' with
    | .lt => (k, e) :: (k', e') :: t
    | .eq => (k, e) :: t
    | .gt => (k', e') :: btreeInsert t k e

/-- `BTreeMap::get` (first binding of the key; bindings are unique). -/
def btreeGet (l : List (Bytes × MemtableEntry)) (k : Bytes) : Option MemtableEntry :=
  match l with
  | [] => none
  | (k', e') :: t => if k' = k then some e' else btreeGet t k

def Memtable.new (max_size : Nat) : Memtable :=
  { data := [], size := 0, max_size := max_size, seq_num := 0 }

/-- `Memtable::put` (always returns `Ok(())` in the source, so the
embedding returns the new state directly). -/
def Memtable.put (m : Memtable) (key value : Bytes) : Memtable :=
  let seq := m.seq_num + 1
  let entry : MemtableEntry := { value := some value, seq_num := seq }
  let size_delta :=
    match btreeGet m.data key with
    | some old_entry =>
      let old_value_size := ((old_entry.value.map List.length).getD 0)
      if value.length > old_value_size then value.length - old_value_size else 0
    | none => key.length + value.length + 24
  { data := btreeInsert m.data key entry, size := m.size + size_delta,
    max_size := m.max_size, seq_num := seq }

/-- `Memtable::get`. -/
def Memtable.get (m : Memtable) (key : Bytes) : Option MemtableEntry :=
  btreeGet m.data key

/-- `Memtable::delete` (always `Ok(())` in the source). -/
def Memtable.delete (m : Memtable) (key : Bytes) : Memtable :=
  let seq := m.seq_num + 1
  let entry : MemtableEntry := { value := none, seq_num := seq }
  let size_delta := if (btreeGet m.data key).isSome then 0 else key.length + 24
  { data := btreeInsert m.data key entry, size := m.size + size_delta,
    max_size := m.max_size, seq_num := seq }

/-- `Memtable::range(start, end)`: `BTreeMap::range(start..end)`, which
panics when `start > end` and otherwise yields the bindings with
`start ≤ key < end` in ascending order. -/
def Memtable.range (m : Memtable) (start stop : Bytes) :
    RRes Unit (List (Bytes × MemtableEntry)) :=
  if bytesCmp start stop = .gt then .panik
  else .ok (m.data.filter (fun p => bytesCmp start p.1 ≠ .gt ∧ bytesCmp p.1 stop = .lt))

/-- A memtable operation: `put(key, value)` or `delete(key)`. -/
inductive MOp where
  | put : Bytes → Bytes → MOp
  | del : Bytes → MOp
deriving DecidableEq, Repr

/-- Apply a sequence of operations, oldest first. -/
def applyOps (ops : List MOp) (m : Memtable) : Memtable :=
  ops.foldl (fun m op => match op with | .put k v => m.put k v | .del k => m.delete k) m

/-- Specification view for read-your-writes: the value written by the
last operation on `k` (`some (some v)` for a put, `some none` for a
delete/tombstone, `none` when no operation ever touched `k`). -/
def lastOpValue (ops : List MOp) (k : Bytes) : Option (Option Bytes) :=
  ops.foldl
    (fun acc op =>
      match op with
      | .put k' v => if k' = k then some (some v) else acc
      | .del k' => if k' = k then some none else acc)
    none

/-! ### Data block (`src/lsm/sstable/block.rs`) -/

/-- Modelled from the spec: the source's `crate::constants::BLOCK_SIZE`
module is not under `src/`; the spec fixes the block-size budget at
4 KiB (matching `LSMConfig::default().block_size = 4096`). -/
def BLOCK_SIZE : Nat := 4096

/-- `BlockError`.  `full` exists in the source (`BlockError::Full`) but
is never constructed by it. -/
inductive BlockError where
  | ioErr : String → BlockError
  | corrupted : String → BlockError
  | full : BlockError
deriving DecidableEq, Repr

/-- `Block`: raw bytes plus the decoded restart-point offsets. -/
structure Block where
  data : Bytes
  restart_points : List Nat
deriving DecidableEq, Repr

/-- `BlockBuilder`.  `new()` seeds one restart point at offset 0. -/
structure BlockBuilder where
  data : Bytes
  restart_points : List Nat
  counter : Nat
  restart_interval : Nat
deriving DecidableEq, Repr

def BlockBuilder.new : BlockBuilder :=
  { data := [], restart_points := [0], counter := 0, restart_interval := 16 }

/-- `BlockBuilder::add`.  Returns `Ok(false)` (state untouched) when the
entry does not fit, `Ok(true)` after appending; it never constructs an
error.  The pushed restart offset goes through `as u32`. -/
def BlockBuilder.add (b : BlockBuilder) (key value : Bytes) :
    Except BlockError (BlockBuilder × Bool) :=
  let entry_size := 4 + 4 + key.length + value.length
  let restart_size := (b.restart_points.length + 1) * 4 + 4
  if b.data.length + entry_size + restart_size > BLOCK_SIZE then .ok (b, false)
  else
    let b :=
      if b.counter ≥ b.restart_interval then
        { b with restart_points := b.restart_points ++ [b.data.length % 4294967296],
                 counter := 0 }
      else b
    .ok ({ b with
      data := b.data ++ le32 key.length ++ le32 value.length ++ key ++ value,
      counter := b.counter + 1 }, true)

/-- `BlockBuilder::finish`: append the restart offsets and their count
(all `u32` little-endian). -/
def BlockBuilder.finish (b : BlockBuilder) : Block :=
  { data := b.data ++ (b.restart_points.map le32).flatten ++ le32 b.restart_points.length,
    restart_points := b.restart_points }

/-- Four-byte little-endian read with explicit bounds (`data[i]` panics
out of bounds, so `none` marks a panic site). -/
def read4 (data : Bytes) (i : Nat) : Option Nat :=
  match data[i]?, data[i+1]?, data[i+2]?, data[i+3]? with
  | some a, some b, some c, some d => some (fromLe32 a b c d)
  | _, _, _, _ => none

/-- The restart-point loading loop of `Block::from_bytes`: `num` reads
of 4 bytes starting at `off` (the source reads at `off + i*4`). -/
def readRestarts (data : Bytes) : Nat → Nat → Option (List Nat)
  | _, 0 => some []
  | off, n + 1 =>
    match read4 data off, readRestarts data (off + 4) n with
    | some x, some xs => some (x :: xs)
    | _, _ => none

/-- `Block::from_bytes`.  The subtraction computing `restart_offset`
wraps (release semantics, `usizeSub`); the following `>` check is what
catches a wrapped value. -/
def Block.from_bytes (data : Bytes) : RRes BlockError Block :=
  if data.length < 4 then .err (.corrupted "Block too small for restart count")
  else
    let num_restarts_offset := data.length - 4
    match read4 data num_restarts_offset with
    | none => .panik
    | some num_restarts =>
      if num_restarts = 0 then .err (.corrupted "Block has no restart points")
      else
        let restart_offset := usizeSub num_restarts_offset (num_restarts * 4)
        if restart_offset > data.length then .err (.corrupted "Invalid restart offset")
        else
          match readRestarts data restart_offset num_restarts with
          | none => .panik
          | some restart_points => .ok { data := data, restart_points := restart_points }

/-- Four-byte little-endian read at an index already known to be in
bounds (`u32::from_le_bytes` over `data[i..i+4]`). -/
def readLe32 (data : Bytes) (i : Nat) : Nat :=
  fromLe32 (data.getD i 0) (data.getD (i + 1) 0) (data.getD (i + 2) 0) (data.getD (i + 3) 0)

/-- `Block::parse_entry`: returns `(key, value, next_offset)`. -/
def Block.parse_entry (blk : Block) (offset : Nat) :
    Except BlockError (Bytes × Bytes × Nat) :=
  if offset + 8 > blk.data.length then .error (.corrupted "Entry offset out of bounds")
  else
    let key_len := readLe32 blk.data offset
    let val_len := readLe32 blk.data (offset + 4)
    let key_start := offset + 8
    let val_start := key_start + key_len
    let next_offset := val_start + val_len
    if next_offset > blk.data.length then .error (.corrupted "Entry extends beyond block")
    else .ok (bslice blk.data key_start val_start, bslice blk.data val_start next_offset,
      next_offset)

theorem parse_entry_next_ge {blk : Block} {off : Nat} {k v : Bytes} {noff : Nat}
    (h : blk.parse_entry off = .ok (k, v, noff)) : off + 8 ≤ noff := by
  unfold Block.parse_entry at h
  split at h
  · exact absurd h (by simp)
  · dsimp only at h
    split at h
    · exact absurd h (by simp)
    · simp only [Except.ok.injEq, Prod.mk.injEq] at h
      omega

/-- The loop of `Block::find_restart_point`: walk the restart points,
remembering the index of the last one whose key is `≤ target`, breaking
at the first key `> target`. -/
def frpAux (blk : Block) (target : Bytes) : List Nat → Nat → Nat → Except BlockError Nat
  | [], _, result => .ok result
  | off :: rest, i, result =>
    match blk.parse_entry off with
    | .error e => .error e
    | .ok (key, _, _) =>
      if bytesCmp key target ≠ .gt then frpAux blk target rest (i + 1) i
      else .ok result

/-- `Block::find_restart_point`. -/
def Block.find_restart_point (blk : Block) (target : Bytes) : Except BlockError Nat :=
  frpAux blk target blk.restart_points 0 0

/-- End of the entry section: `data.len() - restart_points.len()*4 - 4`
(both subtractions with `usize` wrapping semantics). -/
def Block.entriesEnd (blk : Block) : Nat :=
  usizeSub (usizeSub blk.data.length (blk.restart_points.length * 4)) 4

/-- The scan loop of `Block::get`, from `offset` up to `end_offset`. -/
def Block.scanFrom (blk : Block) (target : Bytes) (end_offset : Nat) (offset : Nat) :
    Except BlockError (Option Bytes) :=
  if h : offset < end_offset then
    match hp : blk.parse_entry offset with
    | .error e => .error e
    | .ok (key, value, next_offset) =>
      if key = target then .ok (some value)
      else if bytesCmp key target = .gt then .ok none
      else blk.scanFrom target end_offset next_offset
  else .ok none
termination_by end_offset - offset
decreasing_by
  have := parse_entry_next_ge hp
  omega

/-- `Block::get`.  The source indexes `restart_points[idx]`, in bounds
for every block it constructs; the embedding reads with a default. -/
def Block.get (blk : Block) (target : Bytes) : Except BlockError (Option Bytes) :=
  match blk.find_restart_point target with
  | .error e => .error e
  | .ok restart_idx =>
    let start_offset := blk.restart_points.getD restart_idx 0
    let end_offset :=
      if restart_idx + 1 < blk.restart_points.length then
        blk.restart_points.getD (restart_idx + 1) 0
      else blk.entriesEnd
    blk.scanFrom target end_offset start_offset

/-- `BlockIterator::next`, iterated to the end (or the first error).
Note the bound checks differ from `parse_entry`: the entry must end
inside the entry section, not merely inside the block. -/
def iterFrom (data : Bytes) (entries_end : Nat) (off : Nat) :
    Except BlockError (List (Bytes × Bytes)) :=
  if h : off < entries_end then
    if off + 8 > data.length then .error (.corrupted "Entry offset out of bounds")
    else
      let key_len := readLe32 data off
      let val_len := readLe32 data (off + 4)
      let key_start := off + 8
      let val_start := key_start + key_len
      let next_offset := val_start + val_len
      if next_offset > entries_end then .error (.corrupted "Entry extends beyond block")
      else
        match iterFrom data entries_end next_offset with
        | .ok rest => .ok ((bslice data key_start val_start,
            bslice data val_start next_offset) :: rest)
        | .error e => .error e
  else .ok []
termination_by entries_end - off
decreasing_by omega

/-- All pairs produced by `Block::iter`. -/
def Block.iterAll (blk : Block) : Except BlockError (List (Bytes × Bytes)) :=
  iterFrom blk.data blk.entriesEnd 0

/-! ### Specification-side views of the block format (used to state and
prove the round-trip property; derived from the builder, not the spec
text). -/

/-- Encoding of a single block entry. -/
def encE (k v : Bytes) : Bytes := le32 k.length ++ le32 v.length ++ k ++ v

/-- Concatenated encodings of a list of entries. -/
def encAll (es : List (Bytes × Bytes)) : Bytes := (es.map (fun e => encE e.1 e.2)).flatten

/-- Byte offset of entry `i` in the entry section. -/
def offAt (es : List (Bytes × Bytes)) (i : Nat) : Nat := (encAll (es.take i)).length

/-- Indices of restart entries: every 16th entry, starting at 0. -/
def rpIdx (n : Nat) : List Nat := (List.range n).filter (fun i => i % 16 = 0)

/-- Restart-point offsets the builder records for `es`. -/
def rpSpec (es : List (Bytes × Bytes)) : List Nat :=
  if es.isEmpty then [0] else (rpIdx es.length).map (offAt es)

/-- The builder's `counter` after adding `es`. -/
def cntSpec (es : List (Bytes × Bytes)) : Nat :=
  match es.length with
  | 0 => 0
  | n + 1 => n % 16 + 1

/-- Fold `BlockBuilder::add` over a list of entries, conjoining the
returned booleans (the `.error` arm is unreachable: `add` never
errors). -/
def addAllOk (b : BlockBuilder) : List (Bytes × Bytes) → BlockBuilder × Bool
  | [] => (b, true)
  | e :: es =>
    match BlockBuilder.add b e.1 e.2 with
    | .ok (b', r) =>
      match addAllOk b' es with
      | (b'', r') => (b'', r && r')
    | .error _ => (b, false)

/-- Builder state after adding `es` from a fresh builder. -/
def buildOf (es : List (Bytes × Bytes)) : BlockBuilder := (addAllOk BlockBuilder.new es).1

/-- All adds accepted (every `add` returned `Ok(true)`). -/
def accepted (es : List (Bytes × Bytes)) : Prop := (addAllOk BlockBuilder.new es).2 = true

instance : DecidablePred accepted := fun es => by unfold accepted; infer_instance

/-- The builder invariant tying a builder state to the entries added so
far. -/
def builderInv (es : List (Bytes × Bytes)) (b : BlockBuilder) : Prop :=
  b.data = encAll es ∧ b.restart_points = rpSpec es ∧ b.counter = cntSpec es ∧
    b.restart_interval = 16 ∧ b.data.length + 4 * b.restart_points.length + 4 ≤ BLOCK_SIZE

/-! ### Bloom filter (`src/lsm/sstable/bloom.rs`)

`num_hashes` is computed in `f64` arithmetic.  IEEE-754 doubles are
dyadic rationals, so the computation is embedded exactly over `ℚ`:
`rne` is round-to-nearest, ties to even, and `roundF64` rounds a
positive rational to 53 significant bits. -/

/-- Round a rational to the nearest integer, ties to even. -/
def rne (x : ℚ) : ℤ :=
  let f := ⌊x⌋
  if 2 * (x - f) < 1 then f
  else if 1 < 2 * (x - f) then f + 1
  else if f % 2 = 0 then f else f + 1

/-- Round a nonnegative rational to the nearest `f64` (53-bit mantissa;
the exponent range of `f64` is never approached here). -/
def roundF64 (q : ℚ) : ℚ :=
  if q ≤ 0 then 0
  else
    let e : ℤ := Int.log 2 q - 52
    (rne (q * 2 ^ (-e)) : ℚ) * 2 ^ e

/-- The `f64` literal `0.69`: the 53-bit dyadic nearest to 69/100. -/
def f64const069 : ℚ := 6214967485771284 / 9007199254740992

/-- `((bits_per_key as f64) * 0.69).ceil() as u32`, then `.clamp(1, 30)`
(`Float::ceil` is exact on `f64`; `as u32` saturates). -/
def bloomNumHashes (bits_per_key : Nat) : Nat :=
  let prod := roundF64 (roundF64 (bits_per_key : ℚ) * f64const069)
  let ceiled : ℤ := ⌈prod⌉
  let casted : Nat := (min ceiled 4294967295).toNat
  min 30 (max 1 casted)

/-- `BloomFilter`: bit array (as bytes) and the number of hash probes. -/
structure BloomFilter where
  bits : Bytes
  num_hashes : Nat
deriving DecidableEq, Repr

/-- `BloomFilter::new`.  `usize` sizes are far from overflow for any
allocatable filter, so they are plain `Nat` arithmetic. -/
def BloomFilter.new (num_keys bits_per_key : Nat) : BloomFilter :=
  let total_bits := num_keys * bits_per_key
  let total_bits := max total_bits 64
  let num_bytes := (total_bits + 7) / 8
  { bits := List.replicate num_bytes 0, num_hashes := bloomNumHashes bits_per_key }

/-- `2^64`, the modulus of wrapping `u64` arithmetic. -/
def U64 : Nat := 18446744073709551616

/-- FNV-1a-style first hash `h1` (xor byte, wrapping-multiply prime). -/
def fnv1a (key : Bytes) : Nat :=
  key.foldl (fun h b => ((h ^^^ b) * 0x100000001b3) % U64) 0xcbf29ce484222325

/-- Second hash `h2`: rotate-left-5 then wrapping-add each byte. -/
def rotAdd (key : Bytes) : Nat :=
  key.foldl (fun h b => ((h % 576460752303423488) * 32 + h / 576460752303423488 + b) % U64)
    0x9e3779b97f4a7c15

/-- `BloomFilter::hash`: the double-hashing pair `(h1, h2)`, with `h2`
forced non-zero. -/
def bloomHash (key : Bytes) : Nat × Nat :=
  let h1 := fnv1a key
  let h2 := rotAdd key
  (h1, if h2 = 0 then 1 else h2)

/-- `BloomFilter::set_bit`. -/
def BloomFilter.set_bit (f : BloomFilter) (pos : Nat) : BloomFilter :=
  let byte_idx := pos / 8
  let bit_idx := pos % 8
  if byte_idx < f.bits.length then
    { f with bits := f.bits.set byte_idx ((f.bits.getD byte_idx 0) ||| (1 <<< bit_idx)) }
  else f

/-- `BloomFilter::is_bit_set`. -/
def BloomFilter.is_bit_set (f : BloomFilter) (pos : Nat) : Bool :=
  let byte_idx := pos / 8
  let bit_idx := pos % 8
  if byte_idx < f.bits.length then ((f.bits.getD byte_idx 0) &&& (1 <<< bit_idx)) != 0
  else false

/-- The probe position for index `i`: `h1.wrapping_add(i.wrapping_mul(h2))
% total_bits` (`total_bits = bits.len() * 8`). -/
def bloomPos (h1 h2 total_bits i : Nat) : Nat :=
  ((h1 + i * h2 % U64) % U64) % total_bits

/-- `BloomFilter::add`. -/
def BloomFilter.add (f : BloomFilter) (key : Bytes) : BloomFilter :=
  let h := bloomHash key
  let total_bits := f.bits.length * 8
  (List.range f.num_hashes).foldl (fun f i => f.set_bit (bloomPos h.1 h.2 total_bits i)) f

/-- `BloomFilter::may_contain` (the early-exit loop is `List.all`). -/
def BloomFilter.may_contain (f : BloomFilter) (key : Bytes) : Bool :=
  let h := bloomHash key
  let total_bits := f.bits.length * 8
  (List.range f.num_hashes).all (fun i => f.is_bit_set (bloomPos h.1 h.2 total_bits i))

/-- Add a list of keys in order. -/
def bloomAddAll (f : BloomFilter) (ks : List Bytes) : BloomFilter :=
  ks.foldl BloomFilter.add f

/-! ### Basic lemmas -/

instance {ε α : Type} [DecidableEq ε] [DecidableEq α] : DecidableEq (Except ε α)
  | .ok a, .ok b => if h : a = b then .isTrue (by rw [h]) else .isFalse (by simp [h])
  | .ok _, .error _ => .isFalse (by simp)
  | .error _, .ok _ => .isFalse (by simp)
  | .error e, .error f => if h : e = f then .isTrue (by rw [h]) else .isFalse (by simp [h])

theorem le32_bytes_lt (n : Nat) : ∀ b ∈ le32 n, b < 256 := by
  simp only [le32, List.mem_cons, List.not_mem_nil, or_false]
  rintro b (rfl | rfl | rfl | rfl) <;> omega

theorem readExact_append (a b : Bytes) : readExact (a ++ b) a.length = some (a, b) := by
  simp [readExact, List.take_left, List.drop_left, List.length_append, Nat.le_add_right]

theorem readExact_le32 (n : Nat) (b : Bytes) :
    readExact (le32 n ++ b) 4 = some (le32 n, b) := by
  have := readExact_append (le32 n) b
  simpa using this

theorem readExact_eq_some {s : Bytes} {n : Nat} {a b : Bytes}
    (h : readExact s n = some (a, b)) : n ≤ s.length ∧ a = s.take n ∧ b = s.drop n := by
  unfold readExact at h
  split at h
  · simp only [Option.some.injEq, Prod.mk.injEq] at h
    exact ⟨by assumption, h.1.symm, h.2.symm⟩
  · simp at h

theorem crcRound_lt {c : Nat} (h : c < 4294967296) : crcRound c < 4294967296 := by
  have h1 : c >>> 1 < 4294967296 := by
    have : c >>> 1 = c / 2 := Nat.shiftRight_one c
    omega
  unfold crcRound
  split
  · have h2 : c >>> 1 < 2 ^ 32 := by norm_num at h1 ⊢; exact h1
    have h3 : (0xEDB88320 : Nat) < 2 ^ 32 := by norm_num
    have := Nat.xor_lt_two_pow h2 h3
    norm_num at this ⊢
    exact this
  · exact h1

theorem iterate_crcRound_lt (n : Nat) : ∀ {c : Nat}, c < 4294967296 →
    crcRound^[n] c < 4294967296 := by
  induction n with
  | zero => intro c h; simpa using h
  | succ n ih =>
    intro c h
    rw [Function.iterate_succ_apply]
    exact ih (crcRound_lt h)

theorem crcByte_lt {c b : Nat} (hc : c < 4294967296) (hb : b < 256) :
    crcByte c b < 4294967296 := by
  have hxb : c ^^^ b < 4294967296 := by
    have h2 : c < 2 ^ 32 := by norm_num at hc ⊢; exact hc
    have h3 : b < 2 ^ 32 := by norm_num; omega
    have := Nat.xor_lt_two_pow h2 h3
    norm_num at this ⊢
    exact this
  exact iterate_crcRound_lt 8 hxb

theorem foldl_crcByte_lt : ∀ (l : Bytes) {c : Nat}, c < 4294967296 →
    (∀ b ∈ l, b < 256) → l.foldl crcByte c < 4294967296 := by
  intro l
  induction l with
  | nil => intro c hc _; simpa using hc
  | cons x xs ih =>
    intro c hc hl
    rw [List.foldl_cons]
    exact ih (crcByte_lt hc (hl x (by simp))) (fun b hb => hl b (by simp [hb]))

theorem crc32_lt {l : Bytes} (h : ∀ b ∈ l, b < 256) : crc32 l < 4294967296 := by
  unfold crc32
  have h1 : l.foldl crcByte 0xFFFFFFFF < 4294967296 :=
    foldl_crcByte_lt l (by norm_num) h
  have h2 : l.foldl crcByte 0xFFFFFFFF < 2 ^ 32 := by norm_num at h1 ⊢; exact h1
  have h3 : (0xFFFFFFFF : Nat) < 2 ^ 32 := by norm_num
  have := Nat.xor_lt_two_pow h2 h3
  norm_num at this ⊢
  exact this

/-! ### WAL round-trip and panic inversion -/

theorem decode_encode (e : WalEntry) (hwf : e.wf) (rest : Bytes) :
    decode_entry (encode_entry e ++ rest) = .ok (some e, rest) := by
  cases e with
  | put k v =>
    obtain ⟨hk, hv, hlen⟩ := hwf
    set kl := k.length with hkl
    set vl := v.length with hvl
    have hQ9 : (([1] ++ le32 kl ++ le32 vl) : Bytes).length = 9 := by simp
    have hQlen : ((([1] ++ le32 kl ++ le32 vl) ++ (k ++ v)) : Bytes).length = 9 + kl + vl := by
      simp only [List.length_append, le32_length, List.length_singleton, ← hkl, ← hvl]
      omega
    have hQbytes : ∀ b ∈ ((([1] ++ le32 kl ++ le32 vl) ++ (k ++ v)) : Bytes), b < 256 := by
      intro b hb
      simp only [List.mem_append, List.mem_singleton] at hb
      rcases hb with ((rfl | h) | h) | h | h
      · omega
      · exact le32_bytes_lt _ _ h
      · exact le32_bytes_lt _ _ h
      · exact hk b h
      · exact hv b h
    have hpay : ((le32 (9 + kl + vl) ++ [1] ++ le32 kl ++ le32 vl ++ k ++ v) : Bytes) =
        le32 (9 + kl + vl) ++ (([1] ++ le32 kl ++ le32 vl) ++ (k ++ v)) := by
      simp [List.append_assoc]
    have e1 : encode_entry (.put k v) ++ rest =
        le32 (crc32 (([1] ++ le32 kl ++ le32 vl) ++ (k ++ v))) ++
          ((le32 (9 + kl + vl) ++ (([1] ++ le32 kl ++ le32 vl) ++ (k ++ v))) ++ rest) := by
      simp only [encode_entry, ← hkl, ← hvl]
      rw [hpay, List.drop_left' (show (le32 (9 + kl + vl)).length = 4 by simp),
        List.append_assoc]
    rw [e1]
    unfold decode_entry
    rw [readExact_le32]
    dsimp only
    rw [List.append_assoc, readExact_le32]
    dsimp only
    rw [fromLe32l_le32', fromLe32l_le32', Nat.mod_eq_of_lt hlen, ← hQlen, readExact_append]
    dsimp only
    rw [Nat.mod_eq_of_lt (crc32_lt hQbytes)]
    rw [if_neg (by simp)]
    rw [hQlen]
    rw [if_neg (by omega : ¬ (9 + kl + vl < 1))]
    have hQc : ((([1] ++ le32 kl ++ le32 vl) ++ (k ++ v)) : Bytes) =
        1 :: (le32 kl ++ le32 vl ++ (k ++ v)) := by simp [List.append_assoc]
    have hgetop : ((([1] ++ le32 kl ++ le32 vl) ++ (k ++ v)) : Bytes).getD 0 0 = 1 := by
      rw [hQc]; rfl
    have hwkl : walKeyLen ((([1] ++ le32 kl ++ le32 vl) ++ (k ++ v)) : Bytes) = kl := by
      unfold walKeyLen
      rw [hQc]
      simp only [le32, List.cons_append, List.nil_append, List.getD_cons_succ,
        List.getD_cons_zero]
      unfold fromLe32
      omega
    have hwvl : walValLen ((([1] ++ le32 kl ++ le32 vl) ++ (k ++ v)) : Bytes) = vl := by
      unfold walValLen
      rw [hQc]
      simp only [le32, List.cons_append, List.nil_append, List.getD_cons_succ,
        List.getD_cons_zero]
      unfold fromLe32
      omega
    have hdrop9 : ((([1] ++ le32 kl ++ le32 vl) ++ (k ++ v)) : Bytes).drop 9 = k ++ v :=
      List.drop_left' hQ9
    have hkey : bslice ((([1] ++ le32 kl ++ le32 vl) ++ (k ++ v)) : Bytes) 9 (9 + kl) = k := by
      unfold bslice
      rw [hdrop9, Nat.add_sub_cancel_left, hkl, List.take_left]
    have hval : bslice ((([1] ++ le32 kl ++ le32 vl) ++ (k ++ v)) : Bytes)
        (9 + kl) (9 + kl + vl) = v := by
      unfold bslice
      rw [← List.drop_drop, hdrop9, hkl, List.drop_left, Nat.add_sub_cancel_left, hvl,
        List.take_length]
    rw [if_neg (by omega : ¬ (9 + kl + vl < 5)), if_neg (by omega : ¬ (9 + kl + vl < 9))]
    rw [hwkl, hwvl, if_neg (by omega : ¬ (9 + kl + vl < 9 + kl)), hkey, hval, hgetop]
    rw [if_pos rfl, if_neg (by omega : ¬ (9 + kl + vl < 9 + kl + vl))]
  | del k =>
    obtain ⟨hk, hlen⟩ := hwf
    set kl := k.length with hkl
    have hQ9 : (([2] ++ le32 kl ++ le32 0) : Bytes).length = 9 := by simp
    have hQlen : ((([2] ++ le32 kl ++ le32 0) ++ k) : Bytes).length = 9 + kl := by
      rw [List.length_append, hQ9, ← hkl]
    have hQbytes : ∀ b ∈ ((([2] ++ le32 kl ++ le32 0) ++ k) : Bytes), b < 256 := by
      intro b hb
      simp only [List.mem_append, List.mem_singleton] at hb
      rcases hb with ((rfl | h) | h) | h
      · omega
      · exact le32_bytes_lt _ _ h
      · exact le32_bytes_lt _ _ h
      · exact hk b h
    have hpay : ((le32 (9 + kl) ++ [2] ++ le32 kl ++ le32 0 ++ k) : Bytes) =
        le32 (9 + kl) ++ (([2] ++ le32 kl ++ le32 0) ++ k) := by
      simp [List.append_assoc]
    have e1 : encode_entry (.del k) ++ rest =
        le32 (crc32 (([2] ++ le32 kl ++ le32 0) ++ k)) ++
          ((le32 (9 + kl) ++ (([2] ++ le32 kl ++ le32 0) ++ k)) ++ rest) := by
      simp only [encode_entry, ← hkl, List.length_nil, Nat.add_zero, List.append_nil]
      rw [hpay, List.drop_left' (show (le32 (9 + kl)).length = 4 by simp),
        List.append_assoc]
    rw [e1]
    unfold decode_entry
    rw [readExact_le32]
    dsimp only
    rw [List.append_assoc, readExact_le32]
    dsimp only
    rw [fromLe32l_le32', fromLe32l_le32', Nat.mod_eq_of_lt hlen, ← hQlen, readExact_append]
    dsimp only
    rw [Nat.mod_eq_of_lt (crc32_lt hQbytes)]
    rw [if_neg (by simp)]
    rw [hQlen]
    rw [if_neg (by omega : ¬ (9 + kl < 1))]
    have hQc : ((([2] ++ le32 kl ++ le32 0) ++ k) : Bytes) =
        2 :: (le32 kl ++ le32 0 ++ k) := by simp [List.append_assoc]
    have hgetop : ((([2] ++ le32 kl ++ le32 0) ++ k) : Bytes).getD 0 0 = 2 := by
      rw [hQc]; rfl
    have hwkl : walKeyLen ((([2] ++ le32 kl ++ le32 0) ++ k) : Bytes) = kl := by
      unfold walKeyLen
      rw [hQc]
      simp only [le32, List.cons_append, List.nil_append, List.getD_cons_succ,
        List.getD_cons_zero]
      unfold fromLe32
      omega
    have hdrop9 : ((([2] ++ le32 kl ++ le32 0) ++ k) : Bytes).drop 9 = k :=
      List.drop_left' hQ9
    have hkey : bslice ((([2] ++ le32 kl ++ le32 0) ++ k) : Bytes) 9 (9 + kl) = k := by
      unfold bslice
      rw [hdrop9, Nat.add_sub_cancel_left, hkl, List.take_length]
    rw [if_neg (by omega : ¬ (9 + kl < 5)), if_neg (by omega : ¬ (9 + kl < 9))]
    rw [hwkl, if_neg (by omega : ¬ (9 + kl < 9 + kl)), hkey, hgetop]
    rw [if_neg (by omega : ¬ ((2 : Nat) = 1)), if_pos rfl]

/-- The exact situation in which `decode_entry` panics: the record was
fully read and its CRC matched, but the declared lengths are
inconsistent with the payload length. -/
def walPanicCond (s : Bytes) : Prop :=
  ∃ payload : Bytes,
    8 + payload.length ≤ s.length ∧
    payload = bslice s 8 (8 + payload.length) ∧
    payload.length = fromLe32l (bslice s 4 8) ∧
    crc32 payload = fromLe32l (s.take 4) ∧
    (payload.length < 9 ∨ payload.length < 9 + walKeyLen payload ∨
      (payload.getD 0 0 = 1 ∧ payload.length < 9 + walKeyLen payload + walValLen payload))

theorem decode_panik {s : Bytes} (h : decode_entry s = .panik) : walPanicCond s := by
  unfold decode_entry at h
  rcases hm : readExact s 4 with _ | ⟨cb, s1⟩ <;> rw [hm] at h
  · simp at h
  obtain ⟨h4, hcb, hs1⟩ := readExact_eq_some hm
  dsimp only at h
  rcases hm2 : readExact s1 4 with _ | ⟨lb, s2⟩ <;> rw [hm2] at h
  · simp at h
  obtain ⟨h4b, hlb, hs2⟩ := readExact_eq_some hm2
  dsimp only at h
  rcases hm3 : readExact s2 (fromLe32l lb) with _ | ⟨payload, s3⟩ <;> rw [hm3] at h
  · simp at h
  obtain ⟨hlen3, hpay, hs3⟩ := readExact_eq_some hm3
  dsimp only at h
  have hs2' : s2 = s.drop 8 := by
    rw [hs2, hs1, List.drop_drop]
  have hlens2 : s2.length = s.length - 8 := by rw [hs2']; simp
  have hlens1 : s1.length = s.length - 4 := by rw [hs1]; simp
  have hpaylen : payload.length = fromLe32l lb := by
    rw [hpay, List.length_take]
    omega
  have hpayval : payload = bslice s 8 (8 + payload.length) := by
    rw [hpaylen]
    unfold bslice
    rw [Nat.add_sub_cancel_left, ← hs2']
    exact hpay
  have hlbval : lb = bslice s 4 8 := by
    rw [hlb, hs1]
    unfold bslice
    rfl
  have hslen : 8 + payload.length ≤ s.length := by
    rw [hpaylen]
    omega
  split at h
  · simp at h
  next hcrc =>
    rw [not_not] at hcrc
    refine ⟨payload, hslen, hpayval, ?_, ?_, ?_⟩
    · rw [hpaylen, hlbval]
    · rw [hcrc, hcb]
    · split at h
      next h1 => exact Or.inl (by omega)
      next h1 =>
        split at h
        next h2 => exact Or.inl (by omega)
        next h2 =>
          split at h
          next h3 => exact Or.inl h3
          next h3 =>
            split at h
            next h4 => exact Or.inr (Or.inl h4)
            next h4 =>
              split at h
              next hop =>
                split at h
                next h5 => exact Or.inr (Or.inr ⟨hop, h5⟩)
                next h5 => simp at h
              next hop =>
                split at h
                next => simp at h
                next => simp at h

/-! ### Claims C1, C2, C10 (WAL) -/

/-- C1: the spec says a truncated trailing record at EOF — cut anywhere
before its end — ends iteration cleanly.  Evaluating the reader on a
valid record followed by a 5-byte prefix of a second record (truncated
inside the length field) shows the code instead surfaces an
`UnexpectedEof` I/O error; the intact segment decodes fully, so the
error is caused by the truncation alone.  Only a cut inside the first
four (checksum) bytes is treated as clean EOF. -/
theorem wal_truncated_tail_io_error :
    walReadAll (encode_entry (.put [1] [2]) ++ encode_entry (.put [3] [4])) =
      .ok [.put [1] [2], .put [3] [4]] ∧
    5 < (encode_entry (.put [3] [4])).length ∧
    walReadAll (encode_entry (.put [1] [2]) ++ (encode_entry (.put [3] [4])).take 5) =
      .err (.ioErr "UnexpectedEof") := by
  refine ⟨by decide, by decide, by decide⟩

/-- C2 counterexample: for the entry `Put([], [])`, the stored checksum
(first four bytes, little-endian) is not the CRC-32 of the record bytes
starting at the length field (`drop 4`): the claimed coverage of the
length field is wrong. -/
theorem wal_crc_covers_length_counterexample :
    fromLe32l ((encode_entry (.put [] [])).take 4) ≠
      crc32 ((encode_entry (.put [] [])).drop 4) := by
  decide

/-- C2 (amended): the `crc32` field of an encoded WAL entry covers the
bytes after the length field — op, key_len, val_len, key, value
(`drop 8`) — not the length field itself. -/
theorem wal_crc_covers_after_length (e : WalEntry) (hwf : e.wf) :
    fromLe32l ((encode_entry e).take 4) = crc32 ((encode_entry e).drop 8) := by
  cases e with
  | put k v =>
    obtain ⟨hk, hv, _⟩ := hwf
    have hpay : ((le32 (9 + k.length + v.length) ++ [1] ++ le32 k.length ++ le32 v.length
        ++ k ++ v) : Bytes) =
        le32 (9 + k.length + v.length) ++ (([1] ++ le32 k.length ++ le32 v.length) ++ (k ++ v)) := by
      simp [List.append_assoc]
    have hbytes : ∀ b ∈ ((([1] ++ le32 k.length ++ le32 v.length) ++ (k ++ v)) : Bytes),
        b < 256 := by
      intro b hb
      simp only [List.mem_append, List.mem_singleton] at hb
      rcases hb with ((rfl | h) | h) | h | h
      · omega
      · exact le32_bytes_lt _ _ h
      · exact le32_bytes_lt _ _ h
      · exact hk b h
      · exact hv b h
    simp only [encode_entry]
    rw [hpay, List.drop_left' (show (le32 (9 + k.length + v.length)).length = 4 by simp)]
    rw [List.take_left' (by simp), fromLe32l_le32', Nat.mod_eq_of_lt (crc32_lt hbytes)]
    rw [show ((8 : Nat) = 4 + 4) by rfl, ← List.drop_drop]
    rw [List.drop_left' (show (le32 (crc32 (([1] ++ le32 k.length ++ le32 v.length) ++
      (k ++ v)))).length = 4 by simp)]
    rw [List.drop_left' (show (le32 (9 + k.length + v.length)).length = 4 by simp)]
  | del k =>
    obtain ⟨hk, _⟩ := hwf
    have hpay : ((le32 (9 + k.length) ++ [2] ++ le32 k.length ++ le32 0 ++ k) : Bytes) =
        le32 (9 + k.length) ++ (([2] ++ le32 k.length ++ le32 0) ++ k) := by
      simp [List.append_assoc]
    have hbytes : ∀ b ∈ ((([2] ++ le32 k.length ++ le32 0) ++ k) : Bytes), b < 256 := by
      intro b hb
      simp only [List.mem_append, List.mem_singleton] at hb
      rcases hb with ((rfl | h) | h) | h
      · omega
      · exact le32_bytes_lt _ _ h
      · exact le32_bytes_lt _ _ h
      · exact hk b h
    simp only [encode_entry, List.length_nil, Nat.add_zero, List.append_nil]
    rw [hpay, List.drop_left' (show (le32 (9 + k.length)).length = 4 by simp)]
    rw [List.take_left' (by simp), fromLe32l_le32', Nat.mod_eq_of_lt (crc32_lt hbytes)]
    rw [show ((8 : Nat) = 4 + 4) by rfl, ← List.drop_drop]
    rw [List.drop_left' (show (le32 (crc32 (([2] ++ le32 k.length ++ le32 0) ++
      k))).length = 4 by simp)]
    rw [List.drop_left' (show (le32 (9 + k.length)).length = 4 by simp)]

/-- C2 witness: the amended theorem applied at the concrete entry
`Put([1], [2])`. -/
theorem wal_crc_covers_after_length_witness :
    WalEntry.wf (.put [1] [2]) ∧
      fromLe32l ((encode_entry (.put [1] [2])).take 4) =
        crc32 ((encode_entry (.put [1] [2])).drop 8) :=
  ⟨by decide, wal_crc_covers_after_length (.put [1] [2]) (by decide)⟩

/-- C10 counterexample: a record whose CRC matches its payload but whose
declared `key_len` (100) exceeds the payload length makes `decode_entry`
panic (out-of-bounds slice), instead of returning `Ok` or a `WalError`. -/
theorem wal_decode_panics_counterexample :
    decode_entry (le32 (crc32 ([1] ++ le32 100 ++ le32 0)) ++ le32 9 ++
      ([1] ++ le32 100 ++ le32 0)) = .panik := by
  decide

/-- C10 (amended): `decode_entry` is total — `Ok` or `WalError` — on
well-formed records (every encoded entry decodes back, leaving the rest
of the stream), and the only inputs on which it panics are records that
were fully read with a matching CRC but whose declared lengths are
inconsistent with the payload length. -/
theorem wal_decode_total_amended :
    (∀ (e : WalEntry) (rest : Bytes), e.wf →
      decode_entry (encode_entry e ++ rest) = .ok (some e, rest)) ∧
    (∀ s : Bytes, decode_entry s = .panik → walPanicCond s) :=
  ⟨fun e rest hwf => decode_encode e hwf rest, fun _ h => decode_panik h⟩

/-- C10 witness: both halves of the amended theorem at concrete inputs:
the round-trip at `Del([7])` with a nonempty rest, and the panic
characterization at the panicking record. -/
theorem wal_decode_total_amended_witness :
    WalEntry.wf (.del [7]) ∧
    decode_entry (encode_entry (.del [7]) ++ [9, 9]) = .ok (some (.del [7]), [9, 9]) ∧
    walPanicCond (le32 (crc32 ([1] ++ le32 100 ++ le32 0)) ++ le32 9 ++
      ([1] ++ le32 100 ++ le32 0)) :=
  ⟨by decide, wal_decode_total_amended.1 (.del [7]) [9, 9] (by decide),
    wal_decode_total_amended.2 _ (by decide)⟩

/-! ### Byte-order lemmas -/

theorem bytesCmp_refl : ∀ l : Bytes, bytesCmp l l = .eq
  | [] => rfl
  | a :: as => by
    simp only [bytesCmp, lt_irrefl, if_false]
    exact bytesCmp_refl as

theorem bytesCmp_eq_iff : ∀ {a b : Bytes}, bytesCmp a b = .eq ↔ a = b
  | [], [] => by simp [bytesCmp]
  | [], _ :: _ => by simp [bytesCmp]
  | _ :: _, [] => by simp [bytesCmp]
  | x :: xs, y :: ys => by
    unfold bytesCmp
    split
    · simp only [List.cons.injEq]
      constructor
      · intro h; exact absurd h (by simp)
      · rintro ⟨rfl, _⟩; omega
    · split
      · simp only [List.cons.injEq]
        constructor
        · intro h; exact absurd h (by simp)
        · rintro ⟨rfl, _⟩; omega
      · have hxy : x = y := by omega
        subst hxy
        rw [bytesCmp_eq_iff]
        simp

theorem bytesCmp_swap : ∀ {a b : Bytes}, bytesCmp a b = .gt ↔ bytesCmp b a = .lt
  | [], [] => by simp [bytesCmp]
  | [], _ :: _ => by simp [bytesCmp]
  | _ :: _, [] => by simp [bytesCmp]
  | x :: xs, y :: ys => by
    unfold bytesCmp
    rcases Nat.lt_trichotomy x y with h | h | h
    · have h' : ¬ y < x := by omega
      simp [h, h']
    · subst h
      simp only [lt_irrefl, if_false]
      exact bytesCmp_swap
    · have h' : ¬ x < y := by omega
      simp [h, h']

theorem bytesCmp_lt_trans : ∀ {a b c : Bytes},
    bytesCmp a b = .lt → bytesCmp b c = .lt → bytesCmp a c = .lt := by
  intro a
  induction a with
  | nil =>
    intro b c h1 h2
    cases b with
    | nil => simp [bytesCmp] at h1
    | cons y ys =>
      cases c with
      | nil => simp [bytesCmp] at h2
      | cons z zs => simp [bytesCmp]
  | cons x xs ih =>
    intro b c h1 h2
    cases b with
    | nil => simp [bytesCmp] at h1
    | cons y ys =>
      cases c with
      | nil => simp [bytesCmp] at h2
      | cons z zs =>
        unfold bytesCmp at h1 h2 ⊢
        by_cases hxy : x < y
        · by_cases hyz : y < z
          · rw [if_pos (by omega)]
          · rw [if_neg hyz] at h2
            by_cases hzy : z < y
            · rw [if_pos hzy] at h2; cases h2
            · have hyzeq : y = z := by omega
              subst hyzeq
              rw [if_pos hxy]
        · rw [if_neg hxy] at h1
          by_cases hyx : y < x
          · rw [if_pos hyx] at h1; cases h1
          · have hxyeq : x = y := by omega
            subst hxyeq
            rw [if_neg hyx] at h1
            by_cases hxz : x < z
            · rw [if_pos hxz]
            · rw [if_neg hxz] at h2 ⊢
              by_cases hzx : z < x
              · rw [if_pos hzx] at h2; cases h2
              · rw [if_neg hzx] at h2 ⊢
                exact ih h1 h2

/-! ### Memtable lemmas -/

theorem btreeGet_insert_self (l : List (Bytes × MemtableEntry)) (k : Bytes) (e : MemtableEntry) :
    btreeGet (btreeInsert l k e) k = some e := by
  induction l with
  | nil => simp [btreeInsert, btreeGet]
  | cons p t ih =>
    obtain ⟨k', e'⟩ := p
    unfold btreeInsert
    rcases hcmp : bytesCmp k k' with _ | _ | _
    · simp [btreeGet]
    · simp [btreeGet]
    · have hne : ¬ (k' = k) := by
        intro hkk
        subst hkk
        rw [bytesCmp_refl] at hcmp
        cases hcmp
      simp only [btreeGet, if_neg hne]
      exact ih

theorem btreeGet_insert_ne (l : List (Bytes × MemtableEntry)) (k k' : Bytes)
    (e : MemtableEntry) (hne : k ≠ k') :
    btreeGet (btreeInsert l k' e) k = btreeGet l k := by
  have hne' : ¬ (k' = k) := fun h => hne h.symm
  induction l with
  | nil => simp [btreeInsert, btreeGet, hne']
  | cons p t ih =>
    obtain ⟨k'', e''⟩ := p
    unfold btreeInsert
    rcases hcmp : bytesCmp k' k'' with _ | _ | _
    · simp only [btreeGet, if_neg hne']
    · have hk : k' = k'' := bytesCmp_eq_iff.mp hcmp
      subst hk
      simp only [btreeGet, if_neg hne']
    · simp only [btreeGet]
      split
      · rfl
      · exact ih

theorem applyOps_append (l1 l2 : List MOp) (m : Memtable) :
    applyOps (l1 ++ l2) m = applyOps l2 (applyOps l1 m) := by
  unfold applyOps
  rw [List.foldl_append]

theorem lastOpValue_snoc (ops : List MOp) (op : MOp) (k : Bytes) :
    lastOpValue (ops ++ [op]) k =
      match op with
      | .put k' v => if k' = k then some (some v) else lastOpValue ops k
      | .del k' => if k' = k then some none else lastOpValue ops k := by
  unfold lastOpValue
  rw [List.foldl_append]
  rfl

/-- C3: read-your-writes.  For every buffer size and sequence of
put/delete operations applied to a fresh memtable, `get(k)` observes the
value (or tombstone) written by the last operation on `k`, and `none`
when no operation ever touched `k`. -/
theorem memtable_read_your_writes (max_size : Nat) (ops : List MOp) (k : Bytes) :
    ((applyOps ops (Memtable.new max_size)).get k).map (fun e => e.value) =
      lastOpValue ops k := by
  induction ops using List.reverseRecOn with
  | nil => rfl
  | append_singleton ops op ih =>
    rw [applyOps_append, lastOpValue_snoc]
    cases op with
    | put k' v =>
      show ((applyOps ops (Memtable.new max_size)).put k' v |>.get k).map _ = _
      unfold Memtable.put Memtable.get
      dsimp only
      by_cases hk : k' = k
      · subst hk
        rw [btreeGet_insert_self]
        simp
      · rw [btreeGet_insert_ne _ _ _ _ (fun h => hk h.symm), if_neg hk]
        exact ih
    | del k' =>
      show ((applyOps ops (Memtable.new max_size)).delete k' |>.get k).map _ = _
      unfold Memtable.delete Memtable.get
      dsimp only
      by_cases hk : k' = k
      · subst hk
        rw [btreeGet_insert_self]
        simp
      · rw [btreeGet_insert_ne _ _ _ _ (fun h => hk h.symm), if_neg hk]
        exact ih

theorem mem_btreeInsert {l : List (Bytes × MemtableEntry)} {k : Bytes} {e : MemtableEntry}
    {p : Bytes × MemtableEntry} (h : p ∈ btreeInsert l k e) : p = (k, e) ∨ p ∈ l := by
  induction l with
  | nil => simpa [btreeInsert] using h
  | cons q t ih =>
    obtain ⟨k'', e''⟩ := q
    unfold btreeInsert at h
    split at h
    · rcases List.mem_cons.mp h with h | h
      · exact Or.inl h
      · exact Or.inr h
    · rcases List.mem_cons.mp h with h | h
      · exact Or.inl h
      · exact Or.inr (List.mem_cons_of_mem _ h)
    · rcases List.mem_cons.mp h with h | h
      · exact Or.inr (by simp [h])
      · rcases ih h with h' | h'
        · exact Or.inl h'
        · exact Or.inr (List.mem_cons_of_mem _ h')

theorem sorted_btreeInsert {l : List (Bytes × MemtableEntry)} (k : Bytes) (e : MemtableEntry)
    (h : List.Pairwise (fun p q : Bytes × MemtableEntry => bytesCmp p.1 q.1 = .lt) l) :
    List.Pairwise (fun p q : Bytes × MemtableEntry => bytesCmp p.1 q.1 = .lt)
      (btreeInsert l k e) := by
  induction l with
  | nil => simp [btreeInsert]
  | cons q t ih =>
    obtain ⟨k'', e''⟩ := q
    obtain ⟨hhead, htail⟩ := List.pairwise_cons.mp h
    unfold btreeInsert
    rcases hcmp : bytesCmp k k'' with _ | _ | _
    · refine List.pairwise_cons.mpr ⟨?_, h⟩
      intro q hq
      rcases List.mem_cons.mp hq with rfl | hq
      · exact hcmp
      · exact bytesCmp_lt_trans hcmp (hhead q hq)
    · have hk : k = k'' := bytesCmp_eq_iff.mp hcmp
      subst hk
      exact List.pairwise_cons.mpr ⟨hhead, htail⟩
    · refine List.pairwise_cons.mpr ⟨?_, ih htail⟩
      intro q hq
      rcases mem_btreeInsert hq with rfl | hq
      · exact bytesCmp_swap.mp hcmp
      · exact hhead q hq

theorem applyOps_sorted_aux : ∀ (ops : List MOp) (m : Memtable),
    List.Pairwise (fun p q : Bytes × MemtableEntry => bytesCmp p.1 q.1 = .lt) m.data →
    List.Pairwise (fun p q : Bytes × MemtableEntry => bytesCmp p.1 q.1 = .lt)
      (applyOps ops m).data := by
  intro ops
  induction ops with
  | nil => intro m h; exact h
  | cons op rest ih =>
    intro m h
    cases op with
    | put k v =>
      show List.Pairwise _ (applyOps rest (m.put k v)).data
      exact ih _ (sorted_btreeInsert k _ h)
    | del k =>
      show List.Pairwise _ (applyOps rest (m.delete k)).data
      exact ih _ (sorted_btreeInsert k _ h)

theorem applyOps_sorted (ops : List MOp) (sz : Nat) :
    List.Pairwise (fun p q : Bytes × MemtableEntry => bytesCmp p.1 q.1 = .lt)
      (applyOps ops (Memtable.new sz)).data :=
  applyOps_sorted_aux ops _ (by simp [Memtable.new])

/-! ### Claims C3 and C9 (memtable) -/

/-- C9 counterexample: with bounds `start = [1] > end = [0]` — where no
key can lie in `[start, end)`, so the claim demands an empty traversal —
`Memtable::range` panics (`BTreeMap::range` panics when start > end)
instead of returning an empty iterator. -/
theorem memtable_range_panics_counterexample :
    (Memtable.new 1024).range [1] [0] = .panik ∧
      (Memtable.new 1024).range [1] [0] ≠ .ok [] := by
  refine ⟨by decide, by decide⟩

/-- C9 (amended): for bounds with `start ≤ end`, `range(start, end)` is
total and returns exactly the stored entries with `start ≤ k < end`, in
ascending key order; when `start > end` the underlying
`BTreeMap::range` panics. -/
theorem memtable_range_amended (sz : Nat) (ops : List MOp) (start stop : Bytes)
    (h : bytesCmp start stop ≠ .gt) :
    ∃ l, (applyOps ops (Memtable.new sz)).range start stop = .ok l ∧
      (∀ p, p ∈ l ↔ (p ∈ (applyOps ops (Memtable.new sz)).data ∧
        bytesCmp start p.1 ≠ .gt ∧ bytesCmp p.1 stop = .lt)) ∧
      List.Pairwise (fun p q : Bytes × MemtableEntry => bytesCmp p.1 q.1 = .lt) l := by
  have hr : (applyOps ops (Memtable.new sz)).range start stop =
      .ok ((applyOps ops (Memtable.new sz)).data.filter
        (fun p => bytesCmp start p.1 ≠ .gt ∧ bytesCmp p.1 stop = .lt)) := by
    unfold Memtable.range
    rw [if_neg h]
  refine ⟨_, hr, ?_, ?_⟩
  · intro p
    rw [List.mem_filter]
    simp
  · exact (applyOps_sorted ops sz).filter _

/-- C9 witness: the amended theorem at a concrete memtable
(`put [1] [5]; put [2] [6]`) and bounds `[1] ≤ [2]`. -/
theorem memtable_range_amended_witness :
    bytesCmp [1] [2] ≠ .gt ∧
    ∃ l, (applyOps [.put [1] [5], .put [2] [6]] (Memtable.new 16)).range [1] [2] = .ok l ∧
      (∀ p, p ∈ l ↔ (p ∈ (applyOps [.put [1] [5], .put [2] [6]] (Memtable.new 16)).data ∧
        bytesCmp [1] p.1 ≠ .gt ∧ bytesCmp p.1 [2] = .lt)) ∧
      List.Pairwise (fun p q : Bytes × MemtableEntry => bytesCmp p.1 q.1 = .lt) l :=
  ⟨by decide, memtable_range_amended 16 [.put [1] [5], .put [2] [6]] [1] [2] (by decide)⟩

/-! ### Bloom filter lemmas -/

theorem and_two_pow_ne_zero_iff (y i : Nat) : (y &&& 2 ^ i ≠ 0) ↔ y.testBit i := by
  rw [Nat.and_two_pow]
  cases h : y.testBit i <;> simp [(Nat.two_pow_pos i).ne']

theorem set_bit_bits_length (f : BloomFilter) (p : Nat) :
    (f.set_bit p).bits.length = f.bits.length := by
  unfold BloomFilter.set_bit
  dsimp only
  split <;> simp

theorem is_bit_set_set_bit_self (f : BloomFilter) (p : Nat)
    (hp : p / 8 < f.bits.length) : (f.set_bit p).is_bit_set p = true := by
  unfold BloomFilter.set_bit BloomFilter.is_bit_set
  dsimp only
  rw [if_pos hp]
  dsimp only
  rw [if_pos (by simpa using hp)]
  have hget : ((f.bits.set (p / 8) ((f.bits.getD (p / 8) 0) ||| (1 <<< (p % 8)))).getD
      (p / 8) 0) = (f.bits.getD (p / 8) 0) ||| (1 <<< (p % 8)) := by
    rw [List.getD_eq_getElem?_getD, List.getElem?_set_self hp]
    rfl
  rw [hget]
  have h2 : (1 : Nat) <<< (p % 8) = 2 ^ (p % 8) := by
    rw [Nat.shiftLeft_eq, one_mul]
  rw [h2]
  rw [bne_iff_ne]
  rw [ne_eq, ← ne_eq]
  rw [and_two_pow_ne_zero_iff]
  rw [Nat.testBit_lor]
  simp [Nat.testBit_two_pow_self]

theorem is_bit_set_set_bit_mono (f : BloomFilter) (p q : Nat)
    (h : f.is_bit_set q = true) : (f.set_bit p).is_bit_set q = true := by
  unfold BloomFilter.set_bit
  dsimp only
  split
  next hp =>
    unfold BloomFilter.is_bit_set at h ⊢
    dsimp only at h ⊢
    rw [List.length_set]
    split at h
    next hq =>
      rw [if_pos hq]
      by_cases hqq : p / 8 = q / 8
      · have hget : ((f.bits.set (p / 8) ((f.bits.getD (p / 8) 0) ||| (1 <<< (p % 8)))).getD
            (q / 8) 0) = (f.bits.getD (p / 8) 0) ||| (1 <<< (p % 8)) := by
          rw [← hqq, List.getD_eq_getElem?_getD, List.getElem?_set_self hp]
          rfl
        rw [hget]
        have h2 : (1 : Nat) <<< (q % 8) = 2 ^ (q % 8) := by
          rw [Nat.shiftLeft_eq, one_mul]
        rw [h2, bne_iff_ne, ne_eq, ← ne_eq, and_two_pow_ne_zero_iff, Nat.testBit_lor]
        rw [h2, bne_iff_ne, ne_eq, ← ne_eq, and_two_pow_ne_zero_iff] at h
        rw [hqq]
        rw [List.getD_eq_getElem?_getD] at h
        simp [h]
      · have hget : ((f.bits.set (p / 8) ((f.bits.getD (p / 8) 0) ||| (1 <<< (p % 8)))).getD
            (q / 8) 0) = f.bits.getD (q / 8) 0 := by
          rw [List.getD_eq_getElem?_getD, List.getElem?_set_ne hqq, ← List.getD_eq_getElem?_getD]
        rw [hget]
        exact h
    next hq => simp at h
  next => exact h

theorem foldl_set_bit_length (l : List Nat) (posf : Nat → Nat) :
    ∀ f : BloomFilter, (l.foldl (fun f i => f.set_bit (posf i)) f).bits.length =
      f.bits.length := by
  induction l with
  | nil => intro f; rfl
  | cons i rest ih =>
    intro f
    rw [List.foldl_cons, ih, set_bit_bits_length]

theorem foldl_set_bit_mono (l : List Nat) (posf : Nat → Nat) (q : Nat) :
    ∀ f : BloomFilter, f.is_bit_set q = true →
      (l.foldl (fun f i => f.set_bit (posf i)) f).is_bit_set q = true := by
  induction l with
  | nil => intro f h; exact h
  | cons i rest ih =>
    intro f h
    rw [List.foldl_cons]
    exact ih _ (is_bit_set_set_bit_mono _ _ _ h)

theorem foldl_set_bit_sets (l : List Nat) (posf : Nat → Nat) :
    ∀ (f : BloomFilter) (i : Nat), i ∈ l → posf i / 8 < f.bits.length →
      (l.foldl (fun f i => f.set_bit (posf i)) f).is_bit_set (posf i) = true := by
  induction l with
  | nil => intro f i h; cases h
  | cons j rest ih =>
    intro f i hmem hlt
    rw [List.foldl_cons]
    rcases List.mem_cons.mp hmem with rfl | hmem
    · exact foldl_set_bit_mono rest posf _ _ (is_bit_set_set_bit_self f _ hlt)
    · exact ih _ _ hmem (by rw [set_bit_bits_length]; exact hlt)

theorem add_bits_length (f : BloomFilter) (k : Bytes) :
    (f.add k).bits.length = f.bits.length := by
  unfold BloomFilter.add
  exact foldl_set_bit_length _ _ f

theorem set_bit_num_hashes (f : BloomFilter) (p : Nat) :
    (f.set_bit p).num_hashes = f.num_hashes := by
  unfold BloomFilter.set_bit
  dsimp only
  split <;> rfl

theorem foldl_set_bit_num_hashes (l : List Nat) (posf : Nat → Nat) :
    ∀ f : BloomFilter, (l.foldl (fun f i => f.set_bit (posf i)) f).num_hashes =
      f.num_hashes := by
  induction l with
  | nil => intro f; rfl
  | cons i rest ih =>
    intro f
    rw [List.foldl_cons, ih, set_bit_num_hashes]

theorem add_num_hashes (f : BloomFilter) (k : Bytes) :
    (f.add k).num_hashes = f.num_hashes := by
  unfold BloomFilter.add
  exact foldl_set_bit_num_hashes _ _ f

theorem may_contain_after_add (f : BloomFilter) (k : Bytes) (hlen : 0 < f.bits.length) :
    (f.add k).may_contain k = true := by
  unfold BloomFilter.may_contain
  dsimp only
  rw [List.all_eq_true]
  intro i hi
  rw [add_num_hashes] at hi
  rw [add_bits_length]
  have hpos : bloomPos (bloomHash k).1 (bloomHash k).2 (f.bits.length * 8) i <
      f.bits.length * 8 := by
    unfold bloomPos
    exact Nat.mod_lt _ (Nat.mul_pos hlen (by norm_num))
  show (f.add k).is_bit_set _ = true
  unfold BloomFilter.add
  dsimp only
  exact foldl_set_bit_sets (List.range f.num_hashes) _ f i hi (by omega)

theorem may_contain_mono_add (f : BloomFilter) (k k' : Bytes)
    (h : f.may_contain k = true) : (f.add k').may_contain k = true := by
  unfold BloomFilter.may_contain at h ⊢
  dsimp only at h ⊢
  rw [List.all_eq_true] at h ⊢
  intro i hi
  rw [add_num_hashes] at hi
  rw [add_bits_length]
  have hbit := h i hi
  show (f.add k').is_bit_set _ = true
  unfold BloomFilter.add
  dsimp only
  exact foldl_set_bit_mono _ _ _ f hbit

theorem bloomAddAll_bits_length (ks : List Bytes) :
    ∀ f : BloomFilter, (bloomAddAll f ks).bits.length = f.bits.length := by
  induction ks with
  | nil => intro f; rfl
  | cons k rest ih =>
    intro f
    show (bloomAddAll (f.add k) rest).bits.length = _
    rw [ih, add_bits_length]

theorem may_contain_mono_addAll (ks : List Bytes) (k : Bytes) :
    ∀ f : BloomFilter, f.may_contain k = true →
      (bloomAddAll f ks).may_contain k = true := by
  induction ks with
  | nil => intro f h; exact h
  | cons k' rest ih =>
    intro f h
    show (bloomAddAll (f.add k') rest).may_contain k = true
    exact ih _ (may_contain_mono_add f k k' h)

theorem bloomAddAll_no_false_negative (ks : List Bytes) (k : Bytes) :
    ∀ f : BloomFilter, 0 < f.bits.length → k ∈ ks →
      (bloomAddAll f ks).may_contain k = true := by
  induction ks with
  | nil => intro f _ h; cases h
  | cons k' rest ih =>
    intro f hlen hmem
    rcases List.mem_cons.mp hmem with rfl | hmem
    · show (bloomAddAll (f.add k) rest).may_contain k = true
      exact may_contain_mono_addAll rest k _ (may_contain_after_add f k hlen)
    · show (bloomAddAll (f.add k') rest).may_contain k = true
      exact ih _ (by rw [add_bits_length]; exact hlen) hmem

theorem new_bits_length_pos (num_keys bits_per_key : Nat) :
    0 < (BloomFilter.new num_keys bits_per_key).bits.length := by
  unfold BloomFilter.new
  dsimp only
  rw [List.length_replicate]
  have h := Nat.le_max_right (num_keys * bits_per_key) 64
  omega

/-! ### Exact `f64` evaluation lemmas for `bloomNumHashes` -/

theorem int_log_eq_of_bounds (q : ℚ) (k : ℤ) (hq : 0 < q)
    (h1 : (2 : ℚ) ^ k ≤ q) (h2 : q < 2 ^ (k + 1)) : Int.log 2 q = k := by
  have ha : k ≤ Int.log 2 q := by
    rw [← Int.zpow_le_iff_le_log (by norm_num) hq]
    exact_mod_cast h1
  have hb : ¬ (k + 1 ≤ Int.log 2 q) := by
    rw [← Int.zpow_le_iff_le_log (by norm_num) hq]
    push_cast
    linarith
  omega

theorem roundF64_of_bounds (q : ℚ) (k : ℤ) (hq : 0 < q)
    (h1 : (2 : ℚ) ^ k ≤ q) (h2 : q < 2 ^ (k + 1)) :
    roundF64 q = (rne (q * 2 ^ (52 - k)) : ℚ) * 2 ^ (k - 52) := by
  unfold roundF64
  rw [if_neg (not_le.mpr hq), int_log_eq_of_bounds q k hq h1 h2]
  dsimp only
  rw [neg_sub]

theorem roundF64_eval_lo (q : ℚ) (k F : ℤ) (v : ℚ) (hq : 0 < q)
    (h1 : (2 : ℚ) ^ k ≤ q) (h2 : q < 2 ^ (k + 1))
    (hF : ⌊q * 2 ^ (52 - k)⌋ = F) (hfrac : 2 * (q * 2 ^ (52 - k) - F) < 1)
    (hv : (F : ℚ) * 2 ^ (k - 52) = v) :
    roundF64 q = v := by
  rw [roundF64_of_bounds q k hq h1 h2]
  unfold rne
  rw [hF, if_pos hfrac, hv]

theorem roundF64_eval_hi (q : ℚ) (k F : ℤ) (v : ℚ) (hq : 0 < q)
    (h1 : (2 : ℚ) ^ k ≤ q) (h2 : q < 2 ^ (k + 1))
    (hF : ⌊q * 2 ^ (52 - k)⌋ = F) (hfrac : 1 < 2 * (q * 2 ^ (52 - k) - F))
    (hv : ((F + 1 : ℤ) : ℚ) * 2 ^ (k - 52) = v) :
    roundF64 q = v := by
  rw [roundF64_of_bounds q k hq h1 h2]
  unfold rne
  rw [hF, if_neg (by linarith), if_pos hfrac, hv]

theorem roundF64_eval_tie_even (q : ℚ) (k F : ℤ) (v : ℚ) (hq : 0 < q)
    (h1 : (2 : ℚ) ^ k ≤ q) (h2 : q < 2 ^ (k + 1))
    (hF : ⌊q * 2 ^ (52 - k)⌋ = F) (hfrac : 2 * (q * 2 ^ (52 - k) - F) = 1)
    (hpar : F % 2 = 0) (hv : (F : ℚ) * 2 ^ (k - 52) = v) :
    roundF64 q = v := by
  rw [roundF64_of_bounds q k hq h1 h2]
  unfold rne
  rw [hF, if_neg (by linarith), if_neg (by linarith), if_pos hpar, hv]

theorem roundF64_eval_tie_odd (q : ℚ) (k F : ℤ) (v : ℚ) (hq : 0 < q)
    (h1 : (2 : ℚ) ^ k ≤ q) (h2 : q < 2 ^ (k + 1))
    (hF : ⌊q * 2 ^ (52 - k)⌋ = F) (hfrac : 2 * (q * 2 ^ (52 - k) - F) = 1)
    (hpar : ¬ (F % 2 = 0)) (hv : ((F + 1 : ℤ) : ℚ) * 2 ^ (k - 52) = v) :
    roundF64 q = v := by
  rw [roundF64_of_bounds q k hq h1 h2]
  unfold rne
  rw [hF, if_neg (by linarith), if_neg (by linarith), if_neg hpar, hv]

theorem bloomNumHashes_small (b : Nat) (hb : b < 44) :
    bloomNumHashes b = min 30 (max 1 (Int.toNat ⌈(69 * b : ℚ) / 100⌉)) := by
  interval_cases b
  · norm_num [bloomNumHashes, roundF64]
  · unfold bloomNumHashes
    dsimp only
    rw [show roundF64 ((1:ℕ):ℚ) = (1:ℚ) from roundF64_eval_lo _ 0 4503599627370496 1
      (by norm_num) (by norm_num) (by norm_num) (by norm_num [Int.floor_eq_iff])
      (by norm_num) (by norm_num)]
    rw [roundF64_eval_lo _ (-1) 6214967485771284 ((6214967485771284 : ℚ) / 9007199254740992)
      (by norm_num [f64const069]) (by norm_num [f64const069]) (by norm_num [f64const069])
      (by norm_num [f64const069, Int.floor_eq_iff]) (by norm_num [f64const069])
      (by norm_num)]
    have hc1 : ⌈(6214967485771284 : ℚ) / 9007199254740992⌉ = 1 := by norm_num [Int.ceil_eq_iff]
    have hc2 : ⌈(69 * ((1:ℕ):ℚ)) / 100⌉ = 1 := by norm_num [Int.ceil_eq_iff]
    rw [hc1, hc2]
    omega
  · unfold bloomNumHashes
    dsimp only
    rw [show roundF64 ((2:ℕ):ℚ) = (2:ℚ) from roundF64_eval_lo _ 1 4503599627370496 2
      (by norm_num) (by norm_num) (by norm_num) (by norm_num [Int.floor_eq_iff])
      (by norm_num) (by norm_num)]
    rw [roundF64_eval_lo _ 0 6214967485771284 ((6214967485771284 : ℚ) / 4503599627370496)
      (by norm_num [f64const069]) (by norm_num [f64const069]) (by norm_num [f64const069])
      (by norm_num [f64const069, Int.floor_eq_iff]) (by norm_num [f64const069])
      (by norm_num)]
    have hc1 : ⌈(6214967485771284 : ℚ) / 4503599627370496⌉ = 2 := by norm_num [Int.ceil_eq_iff]
    have hc2 : ⌈(69 * ((2:ℕ):ℚ)) / 100⌉ = 2 := by norm_num [Int.ceil_eq_iff]
    rw [hc1, hc2]
    omega
  · unfold bloomNumHashes
    dsimp only
    rw [show roundF64 ((3:ℕ):ℚ) = (3:ℚ) from roundF64_eval_lo _ 1 6755399441055744 3
      (by norm_num) (by norm_num) (by norm_num) (by norm_num [Int.floor_eq_iff])
      (by norm_num) (by norm_num)]
    rw [roundF64_eval_lo _ 1 4661225614328463 ((4661225614328463 : ℚ) / 2251799813685248)
      (by norm_num [f64const069]) (by norm_num [f64const069]) (by norm_num [f64const069])
      (by norm_num [f64const069, Int.floor_eq_iff]) (by norm_num [f64const069])
      (by norm_num)]
    have hc1 : ⌈(4661225614328463 : ℚ) / 2251799813685248⌉ = 3 := by norm_num [Int.ceil_eq_iff]
    have hc2 : ⌈(69 * ((3:ℕ):ℚ)) / 100⌉ = 3 := by norm_num [Int.ceil_eq_iff]
    rw [hc1, hc2]
    omega
  · unfold bloomNumHashes
    dsimp only
    rw [show roundF64 ((4:ℕ):ℚ) = (4:ℚ) from roundF64_eval_lo _ 2 4503599627370496 4
      (by norm_num) (by norm_num) (by norm_num) (by norm_num [Int.floor_eq_iff])
      (by norm_num) (by norm_num)]
    rw [roundF64_eval_lo _ 1 6214967485771284 ((6214967485771284 : ℚ) / 2251799813685248)
      (by norm_num [f64const069]) (by norm_num [f64const069]) (by norm_num [f64const069])
      (by norm_num [f64const069, Int.floor_eq_iff]) (by norm_num [f64const069])
      (by norm_num)]
    have hc1 : ⌈(6214967485771284 : ℚ) / 2251799813685248⌉ = 3 := by norm_num [Int.ceil_eq_iff]
    have hc2 : ⌈(69 * ((4:ℕ):ℚ)) / 100⌉ = 3 := by norm_num [Int.ceil_eq_iff]
    rw [hc1, hc2]
    omega
  · unfold bloomNumHashes
    dsimp only
    rw [show roundF64 ((5:ℕ):ℚ) = (5:ℚ) from roundF64_eval_lo _ 2 5629499534213120 5
      (by norm_num) (by norm_num) (by norm_num) (by norm_num [Int.floor_eq_iff])
      (by norm_num) (by norm_num)]
    rw [roundF64_eval_lo _ 1 7768709357214105 ((7768709357214105 : ℚ) / 2251799813685248)
      (by norm_num [f64const069]) (by norm_num [f64const069]) (by norm_num [f64const069])
      (by norm_num [f64const069, Int.floor_eq_iff]) (by norm_num [f64const069])
      (by norm_num)]
    have hc1 : ⌈(7768709357214105 : ℚ) / 2251799813685248⌉ = 4 := by norm_num [Int.ceil_eq_iff]
    have hc2 : ⌈(69 * ((5:ℕ):ℚ)) / 100⌉ = 4 := by norm_num [Int.ceil_eq_iff]
    rw [hc1, hc2]
    omega
  · unfold bloomNumHashes
    dsimp only
    rw [show roundF64 ((6:ℕ):ℚ) = (6:ℚ) from roundF64_eval_lo _ 2 6755399441055744 6
      (by norm_num) (by norm_num) (by norm_num) (by norm_num [Int.floor_eq_iff])
      (by norm_num) (by norm_num)]
    rw [roundF64_eval_lo _ 2 4661225614328463 ((4661225614328463 : ℚ) / 1125899906842624)
      (by norm_num [f64const069]) (by norm_num [f64const069]) (by norm_num [f64const069])
      (by norm_num [f64const069, Int.floor_eq_iff]) (by norm_num [f64const069])
      (by norm_num)]
    have hc1 : ⌈(4661225614328463 : ℚ) / 1125899906842624⌉ = 5 := by norm_num [Int.ceil_eq_iff]
    have hc2 : ⌈(69 * ((6:ℕ):ℚ)) / 100⌉ = 5 := by norm_num [Int.ceil_eq_iff]
    rw [hc1, hc2]
    omega
  · unfold bloomNumHashes
    dsimp only
    rw [show roundF64 ((7:ℕ):ℚ) = (7:ℚ) from roundF64_eval_lo _ 2 7881299347898368 7
      (by norm_num) (by norm_num) (by norm_num) (by norm_num [Int.floor_eq_iff])
      (by norm_num) (by norm_num)]
    rw [roundF64_eval_tie_odd _ 2 5438096550049873 ((5438096550049874 : ℚ) / 1125899906842624)
      (by norm_num [f64const069]) (by norm_num [f64const069]) (by norm_num [f64const069])
      (by norm_num [f64const069, Int.floor_eq_iff]) (by norm_num [f64const069]) (by norm_num)
      (by norm_num)]
    have hc1 : ⌈(5438096550049874 : ℚ) / 1125899906842624⌉ = 5 := by norm_num [Int.ceil_eq_iff]
    have hc2 : ⌈(69 * ((7:ℕ):ℚ)) / 100⌉ = 5 := by norm_num [Int.ceil_eq_iff]
    rw [hc1, hc2]
    omega
  · unfold bloomNumHashes
    dsimp only
    rw [show roundF64 ((8:ℕ):ℚ) = (8:ℚ) from roundF64_eval_lo _ 3 4503599627370496 8
      (by norm_num) (by norm_num) (by norm_num) (by norm_num [Int.floor_eq_iff])
      (by norm_num) (by norm_num)]
    rw [roundF64_eval_lo _ 2 6214967485771284 ((6214967485771284 : ℚ) / 1125899906842624)
      (by norm_num [f64const069]) (by norm_num [f64const069]) (by norm_num [f64const069])
      (by norm_num [f64const069, Int.floor_eq_iff]) (by norm_num [f64const069])
      (by norm_num)]
    have hc1 : ⌈(6214967485771284 : ℚ) / 1125899906842624⌉ = 6 := by norm_num [Int.ceil_eq_iff]
    have hc2 : ⌈(69 * ((8:ℕ):ℚ)) / 100⌉ = 6 := by norm_num [Int.ceil_eq_iff]
    rw [hc1, hc2]
    omega
  · unfold bloomNumHashes
    dsimp only
    rw [show roundF64 ((9:ℕ):ℚ) = (9:ℚ) from roundF64_eval_lo _ 3 5066549580791808 9
      (by norm_num) (by norm_num) (by norm_num) (by norm_num [Int.floor_eq_iff])
      (by norm_num) (by norm_num)]
    rw [roundF64_eval_tie_even _ 2 6991838421492694 ((6991838421492694 : ℚ) / 1125899906842624)
      (by norm_num [f64const069]) (by norm_num [f64const069]) (by norm_num [f64const069])
      (by norm_num [f64const069, Int.floor_eq_iff]) (by norm_num [f64const069]) (by norm_num)
      (by norm_num)]
    have hc1 : ⌈(6991838421492694 : ℚ) / 1125899906842624⌉ = 7 := by norm_num [Int.ceil_eq_iff]
    have hc2 : ⌈(69 * ((9:ℕ):ℚ)) / 100⌉ = 7 := by norm_num [Int.ceil_eq_iff]
    rw [hc1, hc2]
    omega
  · unfold bloomNumHashes
    dsimp only
    rw [show roundF64 ((10:ℕ):ℚ) = (10:ℚ) from roundF64_eval_lo _ 3 5629499534213120 10
      (by norm_num) (by norm_num) (by norm_num) (by norm_num [Int.floor_eq_iff])
      (by norm_num) (by norm_num)]
    rw [roundF64_eval_lo _ 2 7768709357214105 ((7768709357214105 : ℚ) / 1125899906842624)
      (by norm_num [f64const069]) (by norm_num [f64const069]) (by norm_num [f64const069])
      (by norm_num [f64const069, Int.floor_eq_iff]) (by norm_num [f64const069])
      (by norm_num)]
    have hc1 : ⌈(7768709357214105 : ℚ) / 1125899906842624⌉ = 7 := by norm_num [Int.ceil_eq_iff]
    have hc2 : ⌈(69 * ((10:ℕ):ℚ)) / 100⌉ = 7 := by norm_num [Int.ceil_eq_iff]
    rw [hc1, hc2]
    omega
  · unfold bloomNumHashes
    dsimp only
    rw [show roundF64 ((11:ℕ):ℚ) = (11:ℚ) from roundF64_eval_lo _ 3 6192449487634432 11
      (by norm_num) (by norm_num) (by norm_num) (by norm_num [Int.floor_eq_iff])
      (by norm_num) (by norm_num)]
    rw [roundF64_eval_tie_odd _ 2 8545580292935515 ((8545580292935516 : ℚ) / 1125899906842624)
      (by norm_num [f64const069]) (by norm_num [f64const069]) (by norm_num [f64const069])
      (by norm_num [f64const069, Int.floor_eq_iff]) (by norm_num [f64const069]) (by norm_num)
      (by norm_num)]
    have hc1 : ⌈(8545580292935516 : ℚ) / 1125899906842624⌉ = 8 := by norm_num [Int.ceil_eq_iff]
    have hc2 : ⌈(69 * ((11:ℕ):ℚ)) / 100⌉ = 8 := by norm_num [Int.ceil_eq_iff]
    rw [hc1, hc2]
    omega
  · unfold bloomNumHashes
    dsimp only
    rw [show roundF64 ((12:ℕ):ℚ) = (12:ℚ) from roundF64_eval_lo _ 3 6755399441055744 12
      (by norm_num) (by norm_num) (by norm_num) (by norm_num [Int.floor_eq_iff])
      (by norm_num) (by norm_num)]
    rw [roundF64_eval_lo _ 3 4661225614328463 ((4661225614328463 : ℚ) / 562949953421312)
      (by norm_num [f64const069]) (by norm_num [f64const069]) (by norm_num [f64const069])
      (by norm_num [f64const069, Int.floor_eq_iff]) (by norm_num [f64const069])
      (by norm_num)]
    have hc1 : ⌈(4661225614328463 : ℚ) / 562949953421312⌉ = 9 := by norm_num [Int.ceil_eq_iff]
    have hc2 : ⌈(69 * ((12:ℕ):ℚ)) / 100⌉ = 9 := by norm_num [Int.ceil_eq_iff]
    rw [hc1, hc2]
    omega
  · unfold bloomNumHashes
    dsimp only
    rw [show roundF64 ((13:ℕ):ℚ) = (13:ℚ) from roundF64_eval_lo _ 3 7318349394477056 13
      (by norm_num) (by norm_num) (by norm_num) (by norm_num [Int.floor_eq_iff])
      (by norm_num) (by norm_num)]
    rw [roundF64_eval_lo _ 3 5049661082189168 ((5049661082189168 : ℚ) / 562949953421312)
      (by norm_num [f64const069]) (by norm_num [f64const069]) (by norm_num [f64const069])
      (by norm_num [f64const069, Int.floor_eq_iff]) (by norm_num [f64const069])
      (by norm_num)]
    have hc1 : ⌈(5049661082189168 : ℚ) / 562949953421312⌉ = 9 := by norm_num [Int.ceil_eq_iff]
    have hc2 : ⌈(69 * ((13:ℕ):ℚ)) / 100⌉ = 9 := by norm_num [Int.ceil_eq_iff]
    rw [hc1, hc2]
    omega
  · unfold bloomNumHashes
    dsimp only
    rw [show roundF64 ((14:ℕ):ℚ) = (14:ℚ) from roundF64_eval_lo _ 3 7881299347898368 14
      (by norm_num) (by norm_num) (by norm_num) (by norm_num [Int.floor_eq_iff])
      (by norm_num) (by norm_num)]
    rw [roundF64_eval_tie_odd _ 3 5438096550049873 ((5438096550049874 : ℚ) / 562949953421312)
      (by norm_num [f64const069]) (by norm_num [f64const069]) (by norm_num [f64const069])
      (by norm_num [f64const069, Int.floor_eq_iff]) (by norm_num [f64const069]) (by norm_num)
      (by norm_num)]
    have hc1 : ⌈(5438096550049874 : ℚ) / 562949953421312⌉ = 10 := by norm_num [Int.ceil_eq_iff]
    have hc2 : ⌈(69 * ((14:ℕ):ℚ)) / 100⌉ = 10 := by norm_num [Int.ceil_eq_iff]
    rw [hc1, hc2]
    omega
  · unfold bloomNumHashes
    dsimp only
    rw [show roundF64 ((15:ℕ):ℚ) = (15:ℚ) from roundF64_eval_lo _ 3 8444249301319680 15
      (by norm_num) (by norm_num) (by norm_num) (by norm_num [Int.floor_eq_iff])
      (by norm_num) (by norm_num)]
    rw [roundF64_eval_hi _ 3 5826532017910578 ((5826532017910579 : ℚ) / 562949953421312)
      (by norm_num [f64const069]) (by norm_num [f64const069]) (by norm_num [f64const069])
      (by norm_num [f64const069, Int.floor_eq_iff]) (by norm_num [f64const069])
      (by norm_num)]
    have hc1 : ⌈(5826532017910579 : ℚ) / 562949953421312⌉ = 11 := by norm_num [Int.ceil_eq_iff]
    have hc2 : ⌈(69 * ((15:ℕ):ℚ)) / 100⌉ = 11 := by norm_num [Int.ceil_eq_iff]
    rw [hc1, hc2]
    omega
  · unfold bloomNumHashes
    dsimp only
    rw [show roundF64 ((16:ℕ):ℚ) = (16:ℚ) from roundF64_eval_lo _ 4 4503599627370496 16
      (by norm_num) (by norm_num) (by norm_num) (by norm_num [Int.floor_eq_iff])
      (by norm_num) (by norm_num)]
    rw [roundF64_eval_lo _ 3 6214967485771284 ((6214967485771284 : ℚ) / 562949953421312)
      (by norm_num [f64const069]) (by norm_num [f64const069]) (by norm_num [f64const069])
      (by norm_num [f64const069, Int.floor_eq_iff]) (by norm_num [f64const069])
      (by norm_num)]
    have hc1 : ⌈(6214967485771284 : ℚ) / 562949953421312⌉ = 12 := by norm_num [Int.ceil_eq_iff]
    have hc2 : ⌈(69 * ((16:ℕ):ℚ)) / 100⌉ = 12 := by norm_num [Int.ceil_eq_iff]
    rw [hc1, hc2]
    omega
  · unfold bloomNumHashes
    dsimp only
    rw [show roundF64 ((17:ℕ):ℚ) = (17:ℚ) from roundF64_eval_lo _ 4 4785074604081152 17
      (by norm_num) (by norm_num) (by norm_num) (by norm_num [Int.floor_eq_iff])
      (by norm_num) (by norm_num)]
    rw [roundF64_eval_lo _ 3 6603402953631989 ((6603402953631989 : ℚ) / 562949953421312)
      (by norm_num [f64const069]) (by norm_num [f64const069]) (by norm_num [f64const069])
      (by norm_num [f64const069, Int.floor_eq_iff]) (by norm_num [f64const069])
      (by norm_num)]
    have hc1 : ⌈(6603402953631989 : ℚ) / 562949953421312⌉ = 12 := by norm_num [Int.ceil_eq_iff]
    have hc2 : ⌈(69 * ((17:ℕ):ℚ)) / 100⌉ = 12 := by norm_num [Int.ceil_eq_iff]
    rw [hc1, hc2]
    omega
  · unfold bloomNumHashes
    dsimp only
    rw [show roundF64 ((18:ℕ):ℚ) = (18:ℚ) from roundF64_eval_lo _ 4 5066549580791808 18
      (by norm_num) (by norm_num) (by norm_num) (by norm_num [Int.floor_eq_iff])
      (by norm_num) (by norm_num)]
    rw [roundF64_eval_tie_even _ 3 6991838421492694 ((6991838421492694 : ℚ) / 562949953421312)
      (by norm_num [f64const069]) (by norm_num [f64const069]) (by norm_num [f64const069])
      (by norm_num [f64const069, Int.floor_eq_iff]) (by norm_num [f64const069]) (by norm_num)
      (by norm_num)]
    have hc1 : ⌈(6991838421492694 : ℚ) / 562949953421312⌉ = 13 := by norm_num [Int.ceil_eq_iff]
    have hc2 : ⌈(69 * ((18:ℕ):ℚ)) / 100⌉ = 13 := by norm_num [Int.ceil_eq_iff]
    rw [hc1, hc2]
    omega
  · unfold bloomNumHashes
    dsimp only
    rw [show roundF64 ((19:ℕ):ℚ) = (19:ℚ) from roundF64_eval_lo _ 4 5348024557502464 19
      (by norm_num) (by norm_num) (by norm_num) (by norm_num [Int.floor_eq_iff])
      (by norm_num) (by norm_num)]
    rw [roundF64_eval_hi _ 3 7380273889353399 ((7380273889353400 : ℚ) / 562949953421312)
      (by norm_num [f64const069]) (by norm_num [f64const069]) (by norm_num [f64const069])
      (by norm_num [f64const069, Int.floor_eq_iff]) (by norm_num [f64const069])
      (by norm_num)]
    have hc1 : ⌈(7380273889353400 : ℚ) / 562949953421312⌉ = 14 := by norm_num [Int.ceil_eq_iff]
    have hc2 : ⌈(69 * ((19:ℕ):ℚ)) / 100⌉ = 14 := by norm_num [Int.ceil_eq_iff]
    rw [hc1, hc2]
    omega
  · unfold bloomNumHashes
    dsimp only
    rw [show roundF64 ((20:ℕ):ℚ) = (20:ℚ) from roundF64_eval_lo _ 4 5629499534213120 20
      (by norm_num) (by norm_num) (by norm_num) (by norm_num [Int.floor_eq_iff])
      (by norm_num) (by norm_num)]
    rw [roundF64_eval_lo _ 3 7768709357214105 ((7768709357214105 : ℚ) / 562949953421312)
      (by norm_num [f64const069]) (by norm_num [f64const069]) (by norm_num [f64const069])
      (by norm_num [f64const069, Int.floor_eq_iff]) (by norm_num [f64const069])
      (by norm_num)]
    have hc1 : ⌈(7768709357214105 : ℚ) / 562949953421312⌉ = 14 := by norm_num [Int.ceil_eq_iff]
    have hc2 : ⌈(69 * ((20:ℕ):ℚ)) / 100⌉ = 14 := by norm_num [Int.ceil_eq_iff]
    rw [hc1, hc2]
    omega
  · unfold bloomNumHashes
    dsimp only
    rw [show roundF64 ((21:ℕ):ℚ) = (21:ℚ) from roundF64_eval_lo _ 4 5910974510923776 21
      (by norm_num) (by norm_num) (by norm_num) (by norm_num [Int.floor_eq_iff])
      (by norm_num) (by norm_num)]
    rw [roundF64_eval_lo _ 3 8157144825074810 ((8157144825074810 : ℚ) / 562949953421312)
      (by norm_num [f64const069]) (by norm_num [f64const069]) (by norm_num [f64const069])
      (by norm_num [f64const069, Int.floor_eq_iff]) (by norm_num [f64const069])
      (by norm_num)]
    have hc1 : ⌈(8157144825074810 : ℚ) / 562949953421312⌉ = 15 := by norm_num [Int.ceil_eq_iff]
    have hc2 : ⌈(69 * ((21:ℕ):ℚ)) / 100⌉ = 15 := by norm_num [Int.ceil_eq_iff]
    rw [hc1, hc2]
    omega
  · unfold bloomNumHashes
    dsimp only
    rw [show roundF64 ((22:ℕ):ℚ) = (22:ℚ) from roundF64_eval_lo _ 4 6192449487634432 22
      (by norm_num) (by norm_num) (by norm_num) (by norm_num [Int.floor_eq_iff])
      (by norm_num) (by norm_num)]
    rw [roundF64_eval_tie_odd _ 3 8545580292935515 ((8545580292935516 : ℚ) / 562949953421312)
      (by norm_num [f64const069]) (by norm_num [f64const069]) (by norm_num [f64const069])
      (by norm_num [f64const069, Int.floor_eq_iff]) (by norm_num [f64const069]) (by norm_num)
      (by norm_num)]
    have hc1 : ⌈(8545580292935516 : ℚ) / 562949953421312⌉ = 16 := by norm_num [Int.ceil_eq_iff]
    have hc2 : ⌈(69 * ((22:ℕ):ℚ)) / 100⌉ = 16 := by norm_num [Int.ceil_eq_iff]
    rw [hc1, hc2]
    omega
  · unfold bloomNumHashes
    dsimp only
    rw [show roundF64 ((23:ℕ):ℚ) = (23:ℚ) from roundF64_eval_lo _ 4 6473924464345088 23
      (by norm_num) (by norm_num) (by norm_num) (by norm_num [Int.floor_eq_iff])
      (by norm_num) (by norm_num)]
    rw [roundF64_eval_hi _ 3 8934015760796220 ((8934015760796221 : ℚ) / 562949953421312)
      (by norm_num [f64const069]) (by norm_num [f64const069]) (by norm_num [f64const069])
      (by norm_num [f64const069, Int.floor_eq_iff]) (by norm_num [f64const069])
      (by norm_num)]
    have hc1 : ⌈(8934015760796221 : ℚ) / 562949953421312⌉ = 16 := by norm_num [Int.ceil_eq_iff]
    have hc2 : ⌈(69 * ((23:ℕ):ℚ)) / 100⌉ = 16 := by norm_num [Int.ceil_eq_iff]
    rw [hc1, hc2]
    omega
  · unfold bloomNumHashes
    dsimp only
    rw [show roundF64 ((24:ℕ):ℚ) = (24:ℚ) from roundF64_eval_lo _ 4 6755399441055744 24
      (by norm_num) (by norm_num) (by norm_num) (by norm_num [Int.floor_eq_iff])
      (by norm_num) (by norm_num)]
    rw [roundF64_eval_lo _ 4 4661225614328463 ((4661225614328463 : ℚ) / 281474976710656)
      (by norm_num [f64const069]) (by norm_num [f64const069]) (by norm_num [f64const069])
      (by norm_num [f64const069, Int.floor_eq_iff]) (by norm_num [f64const069])
      (by norm_num)]
    have hc1 : ⌈(4661225614328463 : ℚ) / 281474976710656⌉ = 17 := by norm_num [Int.ceil_eq_iff]
    have hc2 : ⌈(69 * ((24:ℕ):ℚ)) / 100⌉ = 17 := by norm_num [Int.ceil_eq_iff]
    rw [hc1, hc2]
    omega
  · unfold bloomNumHashes
    dsimp only
    rw [show roundF64 ((25:ℕ):ℚ) = (25:ℚ) from roundF64_eval_lo _ 4 7036874417766400 25
      (by norm_num) (by norm_num) (by norm_num) (by norm_num [Int.floor_eq_iff])
      (by norm_num) (by norm_num)]
    rw [roundF64_eval_hi _ 4 4855443348258815 ((4855443348258816 : ℚ) / 281474976710656)
      (by norm_num [f64const069]) (by norm_num [f64const069]) (by norm_num [f64const069])
      (by norm_num [f64const069, Int.floor_eq_iff]) (by norm_num [f64const069])
      (by norm_num)]
    have hc1 : ⌈(4855443348258816 : ℚ) / 281474976710656⌉ = 18 := by norm_num [Int.ceil_eq_iff]
    have hc2 : ⌈(69 * ((25:ℕ):ℚ)) / 100⌉ = 18 := by norm_num [Int.ceil_eq_iff]
    rw [hc1, hc2]
    omega
  · unfold bloomNumHashes
    dsimp only
    rw [show roundF64 ((26:ℕ):ℚ) = (26:ℚ) from roundF64_eval_lo _ 4 7318349394477056 26
      (by norm_num) (by norm_num) (by norm_num) (by norm_num [Int.floor_eq_iff])
      (by norm_num) (by norm_num)]
    rw [roundF64_eval_lo _ 4 5049661082189168 ((5049661082189168 : ℚ) / 281474976710656)
      (by norm_num [f64const069]) (by norm_num [f64const069]) (by norm_num [f64const069])
      (by norm_num [f64const069, Int.floor_eq_iff]) (by norm_num [f64const069])
      (by norm_num)]
    have hc1 : ⌈(5049661082189168 : ℚ) / 281474976710656⌉ = 18 := by norm_num [Int.ceil_eq_iff]
    have hc2 : ⌈(69 * ((26:ℕ):ℚ)) / 100⌉ = 18 := by norm_num [Int.ceil_eq_iff]
    rw [hc1, hc2]
    omega
  · unfold bloomNumHashes
    dsimp only
    rw [show roundF64 ((27:ℕ):ℚ) = (27:ℚ) from roundF64_eval_lo _ 4 7599824371187712 27
      (by norm_num) (by norm_num) (by norm_num) (by norm_num [Int.floor_eq_iff])
      (by norm_num) (by norm_num)]
    rw [roundF64_eval_hi _ 4 5243878816119520 ((5243878816119521 : ℚ) / 281474976710656)
      (by norm_num [f64const069]) (by norm_num [f64const069]) (by norm_num [f64const069])
      (by norm_num [f64const069, Int.floor_eq_iff]) (by norm_num [f64const069])
      (by norm_num)]
    have hc1 : ⌈(5243878816119521 : ℚ) / 281474976710656⌉ = 19 := by norm_num [Int.ceil_eq_iff]
    have hc2 : ⌈(69 * ((27:ℕ):ℚ)) / 100⌉ = 19 := by norm_num [Int.ceil_eq_iff]
    rw [hc1, hc2]
    omega
  · unfold bloomNumHashes
    dsimp only
    rw [show roundF64 ((28:ℕ):ℚ) = (28:ℚ) from roundF64_eval_lo _ 4 7881299347898368 28
      (by norm_num) (by norm_num) (by norm_num) (by norm_num [Int.floor_eq_iff])
      (by norm_num) (by norm_num)]
    rw [roundF64_eval_tie_odd _ 4 5438096550049873 ((5438096550049874 : ℚ) / 281474976710656)
      (by norm_num [f64const069]) (by norm_num [f64const069]) (by norm_num [f64const069])
      (by norm_num [f64const069, Int.floor_eq_iff]) (by norm_num [f64const069]) (by norm_num)
      (by norm_num)]
    have hc1 : ⌈(5438096550049874 : ℚ) / 281474976710656⌉ = 20 := by norm_num [Int.ceil_eq_iff]
    have hc2 : ⌈(69 * ((28:ℕ):ℚ)) / 100⌉ = 20 := by norm_num [Int.ceil_eq_iff]
    rw [hc1, hc2]
    omega
  · unfold bloomNumHashes
    dsimp only
    rw [show roundF64 ((29:ℕ):ℚ) = (29:ℚ) from roundF64_eval_lo _ 4 8162774324609024 29
      (by norm_num) (by norm_num) (by norm_num) (by norm_num [Int.floor_eq_iff])
      (by norm_num) (by norm_num)]
    rw [roundF64_eval_lo _ 4 5632314283980226 ((5632314283980226 : ℚ) / 281474976710656)
      (by norm_num [f64const069]) (by norm_num [f64const069]) (by norm_num [f64const069])
      (by norm_num [f64const069, Int.floor_eq_iff]) (by norm_num [f64const069])
      (by norm_num)]
    have hc1 : ⌈(5632314283980226 : ℚ) / 281474976710656⌉ = 21 := by norm_num [Int.ceil_eq_iff]
    have hc2 : ⌈(69 * ((29:ℕ):ℚ)) / 100⌉ = 21 := by norm_num [Int.ceil_eq_iff]
    rw [hc1, hc2]
    omega
  · unfold bloomNumHashes
    dsimp only
    rw [show roundF64 ((30:ℕ):ℚ) = (30:ℚ) from roundF64_eval_lo _ 4 8444249301319680 30
      (by norm_num) (by norm_num) (by norm_num) (by norm_num [Int.floor_eq_iff])
      (by norm_num) (by norm_num)]
    rw [roundF64_eval_hi _ 4 5826532017910578 ((5826532017910579 : ℚ) / 281474976710656)
      (by norm_num [f64const069]) (by norm_num [f64const069]) (by norm_num [f64const069])
      (by norm_num [f64const069, Int.floor_eq_iff]) (by norm_num [f64const069])
      (by norm_num)]
    have hc1 : ⌈(5826532017910579 : ℚ) / 281474976710656⌉ = 21 := by norm_num [Int.ceil_eq_iff]
    have hc2 : ⌈(69 * ((30:ℕ):ℚ)) / 100⌉ = 21 := by norm_num [Int.ceil_eq_iff]
    rw [hc1, hc2]
    omega
  · unfold bloomNumHashes
    dsimp only
    rw [show roundF64 ((31:ℕ):ℚ) = (31:ℚ) from roundF64_eval_lo _ 4 8725724278030336 31
      (by norm_num) (by norm_num) (by norm_num) (by norm_num [Int.floor_eq_iff])
      (by norm_num) (by norm_num)]
    rw [roundF64_eval_lo _ 4 6020749751840931 ((6020749751840931 : ℚ) / 281474976710656)
      (by norm_num [f64const069]) (by norm_num [f64const069]) (by norm_num [f64const069])
      (by norm_num [f64const069, Int.floor_eq_iff]) (by norm_num [f64const069])
      (by norm_num)]
    have hc1 : ⌈(6020749751840931 : ℚ) / 281474976710656⌉ = 22 := by norm_num [Int.ceil_eq_iff]
    have hc2 : ⌈(69 * ((31:ℕ):ℚ)) / 100⌉ = 22 := by norm_num [Int.ceil_eq_iff]
    rw [hc1, hc2]
    omega
  · unfold bloomNumHashes
    dsimp only
    rw [show roundF64 ((32:ℕ):ℚ) = (32:ℚ) from roundF64_eval_lo _ 5 4503599627370496 32
      (by norm_num) (by norm_num) (by norm_num) (by norm_num [Int.floor_eq_iff])
      (by norm_num) (by norm_num)]
    rw [roundF64_eval_lo _ 4 6214967485771284 ((6214967485771284 : ℚ) / 281474976710656)
      (by norm_num [f64const069]) (by norm_num [f64const069]) (by norm_num [f64const069])
      (by norm_num [f64const069, Int.floor_eq_iff]) (by norm_num [f64const069])
      (by norm_num)]
    have hc1 : ⌈(6214967485771284 : ℚ) / 281474976710656⌉ = 23 := by norm_num [Int.ceil_eq_iff]
    have hc2 : ⌈(69 * ((32:ℕ):ℚ)) / 100⌉ = 23 := by norm_num [Int.ceil_eq_iff]
    rw [hc1, hc2]
    omega
  · unfold bloomNumHashes
    dsimp only
    rw [show roundF64 ((33:ℕ):ℚ) = (33:ℚ) from roundF64_eval_lo _ 5 4644337115725824 33
      (by norm_num) (by norm_num) (by norm_num) (by norm_num [Int.floor_eq_iff])
      (by norm_num) (by norm_num)]
    rw [roundF64_eval_hi _ 4 6409185219701636 ((6409185219701637 : ℚ) / 281474976710656)
      (by norm_num [f64const069]) (by norm_num [f64const069]) (by norm_num [f64const069])
      (by norm_num [f64const069, Int.floor_eq_iff]) (by norm_num [f64const069])
      (by norm_num)]
    have hc1 : ⌈(6409185219701637 : ℚ) / 281474976710656⌉ = 23 := by norm_num [Int.ceil_eq_iff]
    have hc2 : ⌈(69 * ((33:ℕ):ℚ)) / 100⌉ = 23 := by norm_num [Int.ceil_eq_iff]
    rw [hc1, hc2]
    omega
  · unfold bloomNumHashes
    dsimp only
    rw [show roundF64 ((34:ℕ):ℚ) = (34:ℚ) from roundF64_eval_lo _ 5 4785074604081152 34
      (by norm_num) (by norm_num) (by norm_num) (by norm_num [Int.floor_eq_iff])
      (by norm_num) (by norm_num)]
    rw [roundF64_eval_lo _ 4 6603402953631989 ((6603402953631989 : ℚ) / 281474976710656)
      (by norm_num [f64const069]) (by norm_num [f64const069]) (by norm_num [f64const069])
      (by norm_num [f64const069, Int.floor_eq_iff]) (by norm_num [f64const069])
      (by norm_num)]
    have hc1 : ⌈(6603402953631989 : ℚ) / 281474976710656⌉ = 24 := by norm_num [Int.ceil_eq_iff]
    have hc2 : ⌈(69 * ((34:ℕ):ℚ)) / 100⌉ = 24 := by norm_num [Int.ceil_eq_iff]
    rw [hc1, hc2]
    omega
  · unfold bloomNumHashes
    dsimp only
    rw [show roundF64 ((35:ℕ):ℚ) = (35:ℚ) from roundF64_eval_lo _ 5 4925812092436480 35
      (by norm_num) (by norm_num) (by norm_num) (by norm_num [Int.floor_eq_iff])
      (by norm_num) (by norm_num)]
    rw [roundF64_eval_hi _ 4 6797620687562341 ((6797620687562342 : ℚ) / 281474976710656)
      (by norm_num [f64const069]) (by norm_num [f64const069]) (by norm_num [f64const069])
      (by norm_num [f64const069, Int.floor_eq_iff]) (by norm_num [f64const069])
      (by norm_num)]
    have hc1 : ⌈(6797620687562342 : ℚ) / 281474976710656⌉ = 25 := by norm_num [Int.ceil_eq_iff]
    have hc2 : ⌈(69 * ((35:ℕ):ℚ)) / 100⌉ = 25 := by norm_num [Int.ceil_eq_iff]
    rw [hc1, hc2]
    omega
  · unfold bloomNumHashes
    dsimp only
    rw [show roundF64 ((36:ℕ):ℚ) = (36:ℚ) from roundF64_eval_lo _ 5 5066549580791808 36
      (by norm_num) (by norm_num) (by norm_num) (by norm_num [Int.floor_eq_iff])
      (by norm_num) (by norm_num)]
    rw [roundF64_eval_tie_even _ 4 6991838421492694 ((6991838421492694 : ℚ) / 281474976710656)
      (by norm_num [f64const069]) (by norm_num [f64const069]) (by norm_num [f64const069])
      (by norm_num [f64const069, Int.floor_eq_iff]) (by norm_num [f64const069]) (by norm_num)
      (by norm_num)]
    have hc1 : ⌈(6991838421492694 : ℚ) / 281474976710656⌉ = 25 := by norm_num [Int.ceil_eq_iff]
    have hc2 : ⌈(69 * ((36:ℕ):ℚ)) / 100⌉ = 25 := by norm_num [Int.ceil_eq_iff]
    rw [hc1, hc2]
    omega
  · unfold bloomNumHashes
    dsimp only
    rw [show roundF64 ((37:ℕ):ℚ) = (37:ℚ) from roundF64_eval_lo _ 5 5207287069147136 37
      (by norm_num) (by norm_num) (by norm_num) (by norm_num [Int.floor_eq_iff])
      (by norm_num) (by norm_num)]
    rw [roundF64_eval_lo _ 4 7186056155423047 ((7186056155423047 : ℚ) / 281474976710656)
      (by norm_num [f64const069]) (by norm_num [f64const069]) (by norm_num [f64const069])
      (by norm_num [f64const069, Int.floor_eq_iff]) (by norm_num [f64const069])
      (by norm_num)]
    have hc1 : ⌈(7186056155423047 : ℚ) / 281474976710656⌉ = 26 := by norm_num [Int.ceil_eq_iff]
    have hc2 : ⌈(69 * ((37:ℕ):ℚ)) / 100⌉ = 26 := by norm_num [Int.ceil_eq_iff]
    rw [hc1, hc2]
    omega
  · unfold bloomNumHashes
    dsimp only
    rw [show roundF64 ((38:ℕ):ℚ) = (38:ℚ) from roundF64_eval_lo _ 5 5348024557502464 38
      (by norm_num) (by norm_num) (by norm_num) (by norm_num [Int.floor_eq_iff])
      (by norm_num) (by norm_num)]
    rw [roundF64_eval_hi _ 4 7380273889353399 ((7380273889353400 : ℚ) / 281474976710656)
      (by norm_num [f64const069]) (by norm_num [f64const069]) (by norm_num [f64const069])
      (by norm_num [f64const069, Int.floor_eq_iff]) (by norm_num [f64const069])
      (by norm_num)]
    have hc1 : ⌈(7380273889353400 : ℚ) / 281474976710656⌉ = 27 := by norm_num [Int.ceil_eq_iff]
    have hc2 : ⌈(69 * ((38:ℕ):ℚ)) / 100⌉ = 27 := by norm_num [Int.ceil_eq_iff]
    rw [hc1, hc2]
    omega
  · unfold bloomNumHashes
    dsimp only
    rw [show roundF64 ((39:ℕ):ℚ) = (39:ℚ) from roundF64_eval_lo _ 5 5488762045857792 39
      (by norm_num) (by norm_num) (by norm_num) (by norm_num [Int.floor_eq_iff])
      (by norm_num) (by norm_num)]
    rw [roundF64_eval_lo _ 4 7574491623283752 ((7574491623283752 : ℚ) / 281474976710656)
      (by norm_num [f64const069]) (by norm_num [f64const069]) (by norm_num [f64const069])
      (by norm_num [f64const069, Int.floor_eq_iff]) (by norm_num [f64const069])
      (by norm_num)]
    have hc1 : ⌈(7574491623283752 : ℚ) / 281474976710656⌉ = 27 := by norm_num [Int.ceil_eq_iff]
    have hc2 : ⌈(69 * ((39:ℕ):ℚ)) / 100⌉ = 27 := by norm_num [Int.ceil_eq_iff]
    rw [hc1, hc2]
    omega
  · unfold bloomNumHashes
    dsimp only
    rw [show roundF64 ((40:ℕ):ℚ) = (40:ℚ) from roundF64_eval_lo _ 5 5629499534213120 40
      (by norm_num) (by norm_num) (by norm_num) (by norm_num [Int.floor_eq_iff])
      (by norm_num) (by norm_num)]
    rw [roundF64_eval_lo _ 4 7768709357214105 ((7768709357214105 : ℚ) / 281474976710656)
      (by norm_num [f64const069]) (by norm_num [f64const069]) (by norm_num [f64const069])
      (by norm_num [f64const069, Int.floor_eq_iff]) (by norm_num [f64const069])
      (by norm_num)]
    have hc1 : ⌈(7768709357214105 : ℚ) / 281474976710656⌉ = 28 := by norm_num [Int.ceil_eq_iff]
    have hc2 : ⌈(69 * ((40:ℕ):ℚ)) / 100⌉ = 28 := by norm_num [Int.ceil_eq_iff]
    rw [hc1, hc2]
    omega
  · unfold bloomNumHashes
    dsimp only
    rw [show roundF64 ((41:ℕ):ℚ) = (41:ℚ) from roundF64_eval_lo _ 5 5770237022568448 41
      (by norm_num) (by norm_num) (by norm_num) (by norm_num [Int.floor_eq_iff])
      (by norm_num) (by norm_num)]
    rw [roundF64_eval_hi _ 4 7962927091144457 ((7962927091144458 : ℚ) / 281474976710656)
      (by norm_num [f64const069]) (by norm_num [f64const069]) (by norm_num [f64const069])
      (by norm_num [f64const069, Int.floor_eq_iff]) (by norm_num [f64const069])
      (by norm_num)]
    have hc1 : ⌈(7962927091144458 : ℚ) / 281474976710656⌉ = 29 := by norm_num [Int.ceil_eq_iff]
    have hc2 : ⌈(69 * ((41:ℕ):ℚ)) / 100⌉ = 29 := by norm_num [Int.ceil_eq_iff]
    rw [hc1, hc2]
    omega
  · unfold bloomNumHashes
    dsimp only
    rw [show roundF64 ((42:ℕ):ℚ) = (42:ℚ) from roundF64_eval_lo _ 5 5910974510923776 42
      (by norm_num) (by norm_num) (by norm_num) (by norm_num [Int.floor_eq_iff])
      (by norm_num) (by norm_num)]
    rw [roundF64_eval_lo _ 4 8157144825074810 ((8157144825074810 : ℚ) / 281474976710656)
      (by norm_num [f64const069]) (by norm_num [f64const069]) (by norm_num [f64const069])
      (by norm_num [f64const069, Int.floor_eq_iff]) (by norm_num [f64const069])
      (by norm_num)]
    have hc1 : ⌈(8157144825074810 : ℚ) / 281474976710656⌉ = 29 := by norm_num [Int.ceil_eq_iff]
    have hc2 : ⌈(69 * ((42:ℕ):ℚ)) / 100⌉ = 29 := by norm_num [Int.ceil_eq_iff]
    rw [hc1, hc2]
    omega
  · unfold bloomNumHashes
    dsimp only
    rw [show roundF64 ((43:ℕ):ℚ) = (43:ℚ) from roundF64_eval_lo _ 5 6051711999279104 43
      (by norm_num) (by norm_num) (by norm_num) (by norm_num [Int.floor_eq_iff])
      (by norm_num) (by norm_num)]
    rw [roundF64_eval_hi _ 4 8351362559005162 ((8351362559005163 : ℚ) / 281474976710656)
      (by norm_num [f64const069]) (by norm_num [f64const069]) (by norm_num [f64const069])
      (by norm_num [f64const069, Int.floor_eq_iff]) (by norm_num [f64const069])
      (by norm_num)]
    have hc1 : ⌈(8351362559005163 : ℚ) / 281474976710656⌉ = 30 := by norm_num [Int.ceil_eq_iff]
    have hc2 : ⌈(69 * ((43:ℕ):ℚ)) / 100⌉ = 30 := by norm_num [Int.ceil_eq_iff]
    rw [hc1, hc2]
    omega

theorem rne_ge (x : ℚ) : x - 1 / 2 ≤ (rne x : ℚ) := by
  unfold rne
  have h1 := Int.floor_le x
  have h2 := Int.lt_floor_add_one x
  dsimp only
  split
  next h => linarith
  next h =>
    split
    next h' => push_cast; linarith
    next h' =>
      split
      · linarith
      · push_cast; linarith

theorem roundF64_lower (q : ℚ) (hq : 0 < q) :
    q - q / 4503599627370496 ≤ roundF64 q := by
  unfold roundF64
  rw [if_neg (not_le.mpr hq)]
  dsimp only
  have hlog1 : (2 : ℚ) ^ Int.log 2 q ≤ q := Int.zpow_log_le_self (by norm_num) hq
  have hpow : (0 : ℚ) < 2 ^ (-(Int.log 2 q - 52)) := zpow_pos (by norm_num) _
  have hpow2 : (0 : ℚ) < 2 ^ (Int.log 2 q - 52) := zpow_pos (by norm_num) _
  have hexp : q * 2 ^ (-(Int.log 2 q - 52)) * 2 ^ (Int.log 2 q - 52) = q := by
    rw [mul_assoc, ← zpow_add₀ (by norm_num : (2 : ℚ) ≠ 0)]
    simp
  have hx : (2 : ℚ) ^ (52 : ℤ) ≤ q * 2 ^ (-(Int.log 2 q - 52)) := by
    have heq : (2 : ℚ) ^ (52 : ℤ) = 2 ^ Int.log 2 q * 2 ^ (-(Int.log 2 q - 52)) := by
      rw [← zpow_add₀ (by norm_num : (2 : ℚ) ≠ 0)]
      congr 1
      omega
    rw [heq]
    exact mul_le_mul_of_nonneg_right hlog1 hpow.le
  have h52 : (2 : ℚ) ^ (52 : ℤ) * 2 ^ (Int.log 2 q - 52) ≤ q := by
    have := mul_le_mul_of_nonneg_right hx hpow2.le
    rwa [hexp] at this
  have h52' : (4503599627370496 : ℚ) * 2 ^ (Int.log 2 q - 52) ≤ q := by
    have heq : ((4503599627370496 : ℚ)) = 2 ^ (52 : ℤ) := by norm_num
    rw [heq]
    exact h52
  have hrne := rne_ge (q * 2 ^ (-(Int.log 2 q - 52)))
  have hstep := mul_le_mul_of_nonneg_right hrne hpow2.le
  rw [sub_mul, hexp] at hstep
  have hhalf : (1 : ℚ) / 2 * 2 ^ (Int.log 2 q - 52) ≤ q / 4503599627370496 := by
    rw [le_div_iff (by norm_num : (0 : ℚ) < 4503599627370496)]
    linarith [h52', hpow2.le]
  linarith

theorem roundF64_pos (q : ℚ) (hq : 0 < q) : 0 < roundF64 q := by
  have h := roundF64_lower q hq
  have : q / 4503599627370496 < q := by
    apply div_lt_self hq
    norm_num
  linarith

theorem bloomNumHashes_large (b : Nat) (hb : 44 ≤ b) : bloomNumHashes b = 30 := by
  unfold bloomNumHashes
  dsimp only
  have hbq : (44 : ℚ) ≤ (b : ℚ) := by exact_mod_cast hb
  have hbpos : (0 : ℚ) < (b : ℚ) := by linarith
  have hA := roundF64_lower _ hbpos
  have hApos := roundF64_pos _ hbpos
  have hA43 : (43 : ℚ) ≤ roundF64 (b : ℚ) := by
    have hfac : (0 : ℚ) ≤ ((b : ℚ) - 44) * (1 - 1 / 4503599627370496) := by
      apply mul_nonneg
      · linarith
      · norm_num
    nlinarith [hA]
  have hr : (0 : ℚ) < f64const069 := by norm_num [f64const069]
  have hP : (43 : ℚ) * f64const069 ≤ roundF64 (b : ℚ) * f64const069 :=
    mul_le_mul_of_nonneg_right hA43 hr.le
  have hPpos : (0 : ℚ) < roundF64 (b : ℚ) * f64const069 := mul_pos hApos hr
  have hB := roundF64_lower _ hPpos
  have hB29 : (29 : ℚ) < roundF64 (roundF64 (b : ℚ) * f64const069) := by
    have hfac : (0 : ℚ) ≤
        (roundF64 (b : ℚ) * f64const069 - 43 * f64const069) * (1 - 1 / 4503599627370496) := by
      apply mul_nonneg
      · linarith
      · norm_num
    have hc : (29 : ℚ) < 43 * f64const069 - 43 * f64const069 / 4503599627370496 := by
      norm_num [f64const069]
    nlinarith [hB]
  have hceil : (30 : ℤ) ≤ ⌈roundF64 (roundF64 (b : ℚ) * f64const069)⌉ := by
    have h29 : ((29 : ℤ) : ℚ) < roundF64 (roundF64 (b : ℚ) * f64const069) := by
      exact_mod_cast hB29
    have := Int.lt_ceil.mpr h29
    omega
  omega

/-! ### Claims C5 and C8 (Bloom filter) -/

/-- C5: no false negatives.  For every filter built by
`BloomFilter::new` and every list of keys added to it, `may_contain`
answers true for each added key. -/
theorem bloom_no_false_negatives (num_keys bits_per_key : Nat) (ks : List Bytes)
    (k : Bytes) (hk : k ∈ ks) :
    (bloomAddAll (BloomFilter.new num_keys bits_per_key) ks).may_contain k = true :=
  bloomAddAll_no_false_negative ks k _ (new_bits_length_pos num_keys bits_per_key) hk

/-- C5 witness: the theorem at a filter for 2 expected keys, 10 bits per
key, with keys `[1]` and `[2]` added. -/
theorem bloom_no_false_negatives_witness :
    ([2] : Bytes) ∈ [[1], [2]] ∧
      (bloomAddAll (BloomFilter.new 2 10) [[1], [2]]).may_contain [2] = true :=
  ⟨by decide, bloom_no_false_negatives 2 10 [[1], [2]] [2] (by decide)⟩

/-- C8 counterexample: at `bits_per_key = 13` the code chooses 9 probes
(`ceil(13 * 0.69) = 9`), while `ceil(13 * ln 2) = 10`: the claimed
formula `ceil(bits_per_key * ln 2)` does not describe the code, which
uses the constant `0.69`. -/
theorem bloom_num_hashes_not_ln2 :
    (BloomFilter.new 1 13).num_hashes = 9 ∧
      min 30 (max 1 (Int.toNat ⌈(13 : ℝ) * Real.log 2⌉)) = 10 := by
  constructor
  · show bloomNumHashes 13 = 9
    unfold bloomNumHashes
    dsimp only
    rw [show roundF64 ((13 : ℕ) : ℚ) = (13 : ℚ) from roundF64_eval_lo _ 3 7318349394477056 13
      (by norm_num) (by norm_num) (by norm_num) (by norm_num [Int.floor_eq_iff])
      (by norm_num) (by norm_num)]
    rw [roundF64_eval_lo _ 3 5049661082189168 ((5049661082189168 : ℚ) / 562949953421312)
      (by norm_num [f64const069]) (by norm_num [f64const069]) (by norm_num [f64const069])
      (by norm_num [f64const069, Int.floor_eq_iff]) (by norm_num [f64const069])
      (by norm_num)]
    have hc1 : ⌈(5049661082189168 : ℚ) / 562949953421312⌉ = 9 := by
      norm_num [Int.ceil_eq_iff]
    rw [hc1]
    omega
  · have hlo := Real.log_two_gt_d9
    have hhi := Real.log_two_lt_d9
    have hceil : ⌈(13 : ℝ) * Real.log 2⌉ = 10 := by
      rw [Int.ceil_eq_iff]
      constructor
      · push_cast
        nlinarith
      · push_cast
        nlinarith
    rw [hceil]
    omega

/-- C8 (amended): for every `num_keys` and `bits_per_key`, the number of
hash probes chosen by `BloomFilter::new` equals
`ceil(bits_per_key * 0.69)` clamped to `[1, 30]` — the code's constant
is `0.69`, not `ln 2 ≈ 0.693`.  (`num_keys` plays no role.)  The `f64`
computation is modelled exactly; the small-range cases are evaluated
rounding step by rounding step, and for `bits_per_key ≥ 44` both sides
clamp to 30. -/
theorem bloom_num_hashes_point69 (num_keys bits_per_key : Nat) :
    (BloomFilter.new num_keys bits_per_key).num_hashes =
      min 30 (max 1 (Int.toNat ⌈(69 * bits_per_key : ℚ) / 100⌉)) := by
  show bloomNumHashes bits_per_key = _
  by_cases hb : bits_per_key < 44
  · exact bloomNumHashes_small bits_per_key hb
  · rw [bloomNumHashes_large bits_per_key (by omega)]
    have hb44 : (44 : ℚ) ≤ (bits_per_key : ℚ) := by exact_mod_cast Nat.le_of_not_lt hb
    have h30 : ((30 : ℤ) : ℚ) < (69 * bits_per_key : ℚ) / 100 := by
      push_cast
      nlinarith
    have := Int.lt_ceil.mpr h30
    omega

/-! ### Block reader lemmas -/

theorem read4_isSome {data : Bytes} {i : Nat} (h : i + 4 ≤ data.length) :
    ∃ c, read4 data i = some c := by
  unfold read4
  rw [List.getElem?_eq_getElem (by omega), List.getElem?_eq_getElem (by omega),
    List.getElem?_eq_getElem (by omega), List.getElem?_eq_getElem (by omega)]
  exact ⟨_, rfl⟩

theorem read4_lt {data : Bytes} {i c : Nat} (hbytes : ∀ b ∈ data, b < 256)
    (h : read4 data i = some c) : c < 4294967296 := by
  unfold read4 at h
  rcases h0 : data[i]? with _ | a <;> rw [h0] at h
  · simp at h
  rcases h1 : data[i+1]? with _ | b <;> rw [h1] at h
  · simp at h
  rcases h2 : data[i+2]? with _ | e <;> rw [h2] at h
  · simp at h
  rcases h3 : data[i+3]? with _ | d <;> rw [h3] at h
  · simp at h
  simp only [Option.some.injEq] at h
  have ha := hbytes a (List.getElem?_mem h0)
  have hb := hbytes b (List.getElem?_mem h1)
  have he := hbytes e (List.getElem?_mem h2)
  have hd := hbytes d (List.getElem?_mem h3)
  rw [← h]
  unfold fromLe32
  omega

theorem readRestarts_isSome {data : Bytes} :
    ∀ (n ro : Nat), ro + 4 * n ≤ data.length →
      ∃ l, readRestarts data ro n = some l := by
  intro n
  induction n with
  | zero => intro ro _; exact ⟨[], rfl⟩
  | succ m ih =>
    intro ro hro
    obtain ⟨c, hc⟩ := read4_isSome (show ro + 4 ≤ data.length by omega)
    obtain ⟨l, hl⟩ := ih (ro + 4) (by omega)
    refine ⟨c :: l, ?_⟩
    unfold readRestarts
    rw [hc, hl]

/-! ### Claims C6 and C7 (block builder capacity, block reader totality) -/

/-- C6: an entry too large for any block is indistinguishable from an
ordinary full block.  For a fresh builder and a 4100-byte key (8 + 4100
exceeds the 4096-byte budget), `add` returns `Ok(false)` with the
builder unchanged — the same signal as a full block — and `add` can
never return an error: `BlockError::Full` exists but is dead code, so a
caller retrying against a fresh builder loops forever. -/
theorem block_add_oversized_not_distinct :
    BlockBuilder.add BlockBuilder.new (List.replicate 4100 0) [] =
      .ok (BlockBuilder.new, false) ∧
    ∀ (b : BlockBuilder) (key value : Bytes) (e : BlockError),
      BlockBuilder.add b key value ≠ .error e := by
  constructor
  · show BlockBuilder.add BlockBuilder.new (List.replicate 4100 0) [] =
      .ok (BlockBuilder.new, false)
    unfold BlockBuilder.add
    dsimp only
    rw [if_pos (by rw [List.length_replicate]; decide)]
  · intro b key value e
    unfold BlockBuilder.add
    dsimp only
    split
    · simp
    · simp

/-- C7: totality of the block reader.  With bytes as genuine bytes,
`Block::from_bytes` never reaches an out-of-bounds read (`panik`),
errors on inputs shorter than 4 bytes, on a zero restart count, and on
a restart count whose array would not fit the block (caught through the
wrapping subtraction); and `parse_entry` returns `Corrupted` whenever
the entry header or its declared lengths would read outside the block. -/
theorem block_from_bytes_total (data : Bytes) (hbytes : ∀ b ∈ data, b < 256) :
    (Block.from_bytes data ≠ .panik) ∧
    (data.length < 4 →
      Block.from_bytes data = .err (.corrupted "Block too small for restart count")) ∧
    (∀ c, 4 ≤ data.length → read4 data (data.length - 4) = some c → c = 0 →
      Block.from_bytes data = .err (.corrupted "Block has no restart points")) ∧
    (∀ c, 4 ≤ data.length → read4 data (data.length - 4) = some c → 1 ≤ c →
      data.length < 4 * c + 4 →
      Block.from_bytes data = .err (.corrupted "Invalid restart offset")) ∧
    (∀ (blk : Block) (off : Nat), blk.data.length < off + 8 →
      blk.parse_entry off = .error (.corrupted "Entry offset out of bounds")) ∧
    (∀ (blk : Block) (off : Nat), off + 8 ≤ blk.data.length →
      blk.data.length < off + 8 + readLe32 blk.data off + readLe32 blk.data (off + 4) →
      blk.parse_entry off = .error (.corrupted "Entry extends beyond block")) := by
  refine ⟨?_, ?_, ?_, ?_, ?_, ?_⟩
  · intro hpan
    unfold Block.from_bytes at hpan
    split at hpan
    · simp at hpan
    next hge =>
      obtain ⟨c, hc⟩ := read4_isSome (show data.length - 4 + 4 ≤ data.length by omega)
      dsimp only at hpan
      rw [hc] at hpan
      dsimp only at hpan
      split at hpan
      · simp at hpan
      next hc0 =>
        have hclt : c < 4294967296 := read4_lt hbytes hc
        by_cases hun : c * 4 ≤ data.length - 4
        · rw [usizeSub_of_le hun] at hpan
          rw [if_neg (by omega)] at hpan
          obtain ⟨l, hl⟩ := @readRestarts_isSome data c (data.length - 4 - c * 4) (by omega)
          rw [hl] at hpan
          simp at hpan
        · rw [show usizeSub (data.length - 4) (c * 4) =
              data.length - 4 + 18446744073709551616 - c * 4 by
            unfold usizeSub
            rw [if_neg hun]] at hpan
          rw [if_pos (by omega)] at hpan
          simp at hpan
  · intro h4
    unfold Block.from_bytes
    rw [if_pos h4]
  · intro c h4 hc hc0
    unfold Block.from_bytes
    rw [if_neg (by omega)]
    dsimp only
    rw [hc]
    dsimp only
    rw [if_pos hc0]
  · intro c h4 hc hc1 hbig
    have hclt : c < 4294967296 := read4_lt hbytes hc
    unfold Block.from_bytes
    rw [if_neg (by omega)]
    dsimp only
    rw [hc]
    dsimp only
    rw [if_neg (by omega)]
    rw [show usizeSub (data.length - 4) (c * 4) =
        data.length - 4 + 18446744073709551616 - c * 4 by
      unfold usizeSub
      rw [if_neg (by omega)]]
    rw [if_pos (by omega)]
  · intro blk off hoff
    unfold Block.parse_entry
    rw [if_pos (by omega)]
  · intro blk off hoff hlen
    unfold Block.parse_entry
    rw [if_neg (by omega)]
    dsimp only
    rw [if_pos (by omega)]

/-- C7 witness: the theorem applied to the four-byte input `[7,0,0,0]`,
whose restart count 7 demands a 28-byte restart array. -/
theorem block_from_bytes_total_witness :
    (∀ b ∈ ([7, 0, 0, 0] : Bytes), b < 256) ∧
    ((Block.from_bytes [7, 0, 0, 0] ≠ .panik) ∧
    (([7, 0, 0, 0] : Bytes).length < 4 →
      Block.from_bytes [7, 0, 0, 0] = .err (.corrupted "Block too small for restart count")) ∧
    (∀ c, 4 ≤ ([7, 0, 0, 0] : Bytes).length →
      read4 [7, 0, 0, 0] (([7, 0, 0, 0] : Bytes).length - 4) = some c → c = 0 →
      Block.from_bytes [7, 0, 0, 0] = .err (.corrupted "Block has no restart points")) ∧
    (∀ c, 4 ≤ ([7, 0, 0, 0] : Bytes).length →
      read4 [7, 0, 0, 0] (([7, 0, 0, 0] : Bytes).length - 4) = some c → 1 ≤ c →
      ([7, 0, 0, 0] : Bytes).length < 4 * c + 4 →
      Block.from_bytes [7, 0, 0, 0] = .err (.corrupted "Invalid restart offset")) ∧
    (∀ (blk : Block) (off : Nat), blk.data.length < off + 8 →
      blk.parse_entry off = .error (.corrupted "Entry offset out of bounds")) ∧
    (∀ (blk : Block) (off : Nat), off + 8 ≤ blk.data.length →
      blk.data.length < off + 8 + readLe32 blk.data off + readLe32 blk.data (off + 4) →
      blk.parse_entry off = .error (.corrupted "Entry extends beyond block"))) :=
  ⟨by decide, block_from_bytes_total [7, 0, 0, 0] (by decide)⟩

/-! ### Block round-trip layout lemmas (C4) -/

/-- The entry of `es` at index `i` (default-read, as the builder only
ever indexes in bounds). -/
def entAt (es : List (Bytes × Bytes)) (i : Nat) : Bytes × Bytes := es.getD i ([], [])

theorem readLe32_at (xs zs : Bytes) (m : Nat) :
    readLe32 (xs ++ le32 m ++ zs) xs.length = m % 4294967296 := by
  have key : ∀ j, j < 4 → (xs ++ le32 m ++ zs).getD (xs.length + j) 0 = (le32 m).getD j 0 := by
    intro j hj
    rw [show xs ++ le32 m ++ zs = (xs ++ le32 m) ++ zs from rfl]
    rw [List.getD_append _ _ 0 _ (by simp [le32]; omega)]
    rw [List.getD_append_right _ _ 0 _ (by omega)]
    congr 1
    omega
  have e0 := key 0 (by omega)
  have e1 := key 1 (by omega)
  have e2 := key 2 (by omega)
  have e3 := key 3 (by omega)
  rw [Nat.add_zero] at e0
  unfold readLe32
  rw [e0, e1, e2, e3]
  exact fromLe32l_le32' m

theorem bslice_at (xs k zs : Bytes) :
    bslice (xs ++ k ++ zs) xs.length (xs.length + k.length) = k := by
  unfold bslice
  rw [List.append_assoc, List.drop_left' rfl]
  rw [show xs.length + k.length - xs.length = k.length by omega]
  exact List.take_left' rfl

theorem encAll_append (xs ys : List (Bytes × Bytes)) :
    encAll (xs ++ ys) = encAll xs ++ encAll ys := by
  unfold encAll
  rw [List.map_append, List.flatten_append]

theorem encAll_cons (e : Bytes × Bytes) (es : List (Bytes × Bytes)) :
    encAll (e :: es) = encE e.1 e.2 ++ encAll es := rfl

theorem encE_length (k v : Bytes) : (encE k v).length = 8 + k.length + v.length := by
  simp [encE]
  omega

theorem offAt_zero (es : List (Bytes × Bytes)) : offAt es 0 = 0 := rfl

theorem offAt_succ (es : List (Bytes × Bytes)) (i : Nat) (hi : i < es.length) :
    offAt es (i + 1) =
      offAt es i + 8 + (entAt es i).1.length + (entAt es i).2.length := by
  unfold offAt
  rw [List.take_succ, List.getElem?_eq_getElem hi]
  rw [show (some es[i]).toList = [es[i]] from rfl]
  rw [encAll_append, List.length_append]
  rw [show encAll [es[i]] = encE es[i].1 es[i].2 ++ [] from rfl]
  rw [List.append_nil, encE_length]
  unfold entAt
  rw [List.getD_eq_getElem es ([], []) hi]
  omega

theorem offAt_le (es : List (Bytes × Bytes)) {a b : Nat} (hab : a ≤ b) :
    offAt es a ≤ offAt es b := by
  unfold offAt
  conv_rhs => rw [← List.take_append_drop a (es.take b)]
  rw [encAll_append, List.length_append, List.take_take, min_eq_left hab]
  omega

theorem offAt_le_length (es : List (Bytes × Bytes)) (i : Nat) :
    offAt es i ≤ (encAll es).length := by
  conv_rhs => rw [← List.take_append_drop i es]
  rw [encAll_append, List.length_append]
  unfold offAt
  omega

theorem offAt_full (es : List (Bytes × Bytes)) :
    offAt es es.length = (encAll es).length := by
  unfold offAt
  rw [List.take_length]

theorem offAt_lt (es : List (Bytes × Bytes)) {a b : Nat} (hab : a < b)
    (hb : b ≤ es.length) : offAt es a < offAt es b := by
  have h1 := offAt_succ es a (by omega)
  have h2 := offAt_le es (show a + 1 ≤ b by omega)
  omega

theorem encAll_length_ge (es : List (Bytes × Bytes)) :
    8 * es.length ≤ (encAll es).length := by
  induction es with
  | nil => simp [encAll]
  | cons e t ih =>
    rw [encAll_cons, List.length_append, encE_length, List.length_cons]
    omega

/-- Decomposition of `encAll es` around entry `i`. -/
theorem encAll_decomp (es : List (Bytes × Bytes)) (i : Nat) (hi : i < es.length) :
    encAll es = encAll (es.take i) ++
      encE (entAt es i).1 (entAt es i).2 ++ encAll (es.drop (i + 1)) := by
  conv_lhs => rw [← List.take_append_drop i es]
  rw [List.drop_eq_getElem_cons hi, encAll_append]
  rw [show encAll (es[i] :: es.drop (i + 1)) =
    encE es[i].1 es[i].2 ++ encAll (es.drop (i + 1)) from rfl]
  unfold entAt
  rw [List.getD_eq_getElem es ([], []) hi, List.append_assoc]

/-- Parsing at the offset of entry `i` of the encoded entry section
recovers that entry and steps to the next offset. -/
theorem parse_entry_at (es : List (Bytes × Bytes)) (tail : Bytes) (rps : List Nat)
    (hE : (encAll es).length < 4294967296) (i : Nat) (hi : i < es.length) :
    Block.parse_entry { data := encAll es ++ tail, restart_points := rps } (offAt es i) =
      .ok ((entAt es i).1, (entAt es i).2, offAt es (i + 1)) := by
  have hdec := encAll_decomp es i hi
  have hsucc := offAt_succ es i hi
  have hoffP : offAt es i = (encAll (es.take i)).length := rfl
  have hfull : offAt es (i + 1) ≤ (encAll es).length := by
    rw [← offAt_full]
    exact offAt_le es (by omega)
  have hkl : (entAt es i).1.length < 4294967296 := by omega
  have hvl : (entAt es i).2.length < 4294967296 := by omega
  set P := encAll (es.take i) with hP
  set k := (entAt es i).1 with hkdef
  set v := (entAt es i).2 with hvdef
  set R := encAll (es.drop (i + 1)) with hR
  have hd1 : encAll es ++ tail =
      (P ++ le32 k.length) ++ (le32 v.length ++ (k ++ (v ++ (R ++ tail)))) := by
    rw [hdec]
    simp [encE, List.append_assoc]
  have hd2 : encAll es ++ tail =
      ((P ++ le32 k.length) ++ le32 v.length) ++ (k ++ (v ++ (R ++ tail))) := by
    rw [hdec]
    simp [encE, List.append_assoc]
  have hd3 : encAll es ++ tail =
      (((P ++ le32 k.length) ++ le32 v.length) ++ k) ++ (v ++ (R ++ tail)) := by
    rw [hdec]
    simp [encE, List.append_assoc]
  have hd4 : encAll es ++ tail =
      ((((P ++ le32 k.length) ++ le32 v.length) ++ k) ++ v) ++ (R ++ tail) := by
    rw [hdec]
    simp [encE, List.append_assoc]
  have hx2 : (P ++ le32 k.length).length = offAt es i + 4 := by
    rw [List.length_append, le32_length, hoffP]
  have hQ : ((P ++ le32 k.length) ++ le32 v.length).length = offAt es i + 8 := by
    rw [List.length_append, le32_length, hx2]
  have hQ' : (((P ++ le32 k.length) ++ le32 v.length) ++ k).length =
      offAt es i + 8 + k.length := by
    rw [List.length_append, hQ]
  have hk : readLe32 (encAll es ++ tail) (offAt es i) = k.length := by
    rw [hd1, hoffP]
    exact (readLe32_at P (le32 v.length ++ (k ++ (v ++ (R ++ tail)))) k.length).trans
      (Nat.mod_eq_of_lt hkl)
  have hv : readLe32 (encAll es ++ tail) (offAt es i + 4) = v.length := by
    rw [hd2, ← hx2]
    exact (readLe32_at (P ++ le32 k.length) (k ++ (v ++ (R ++ tail))) v.length).trans
      (Nat.mod_eq_of_lt hvl)
  have hkey : bslice (encAll es ++ tail) (offAt es i + 8) (offAt es i + 8 + k.length) = k := by
    have := bslice_at ((P ++ le32 k.length) ++ le32 v.length) k (v ++ (R ++ tail))
    rw [hQ] at this
    rw [hd3]
    exact this
  have hval : bslice (encAll es ++ tail) (offAt es i + 8 + k.length)
      (offAt es i + 8 + k.length + v.length) = v := by
    have := bslice_at (((P ++ le32 k.length) ++ le32 v.length) ++ k) v (R ++ tail)
    rw [hQ'] at this
    rw [hd4]
    exact this
  unfold Block.parse_entry
  dsimp only
  rw [if_neg (show ¬ (offAt es i + 8 > (encAll es ++ tail).length) by
    rw [List.length_append]; omega)]
  rw [hk, hv]
  rw [if_neg (show ¬ (offAt es i + 8 + k.length + v.length > (encAll es ++ tail).length) by
    rw [List.length_append]; omega)]
  rw [hkey, hval]
  simp only [Except.ok.injEq, Prod.mk.injEq]
  refine ⟨trivial, trivial, by omega⟩

/-- Strictly ascending keys (the claim's hypothesis): pairwise `Lt`
under the Rust slice ordering. -/
def keysAsc (es : List (Bytes × Bytes)) : Prop :=
  (es.map Prod.fst).Pairwise (fun a b => bytesCmp a b = .lt)

instance : DecidablePred keysAsc := fun es => by
  unfold keysAsc
  infer_instance

theorem keysAsc_lt {es : List (Bytes × Bytes)} (h : keysAsc es) {i j : Nat}
    (hij : i < j) (hj : j < es.length) :
    bytesCmp (entAt es i).1 (entAt es j).1 = .lt := by
  unfold keysAsc at h
  rw [List.pairwise_iff_getElem] at h
  have := h i j (by simpa using by omega) (by simpa using hj) hij
  rw [List.getElem_map, List.getElem_map] at this
  unfold entAt
  rw [List.getD_eq_getElem es ([], []) (by omega), List.getD_eq_getElem es ([], []) hj]
  exact this

/-- Scanning a window containing no entry with the target key yields
`Ok(None)`. -/
theorem scanFrom_none (es : List (Bytes × Bytes)) (tail : Bytes) (rps : List Nat)
    (hE : (encAll es).length < 4294967296) (target : Bytes) (b a : Nat)
    (hab : a ≤ b) (hb : b ≤ es.length)
    (hne : ∀ i, a ≤ i → i < b → (entAt es i).1 ≠ target) :
    Block.scanFrom { data := encAll es ++ tail, restart_points := rps } target
      (offAt es b) (offAt es a) = .ok none := by
  unfold Block.scanFrom
  by_cases hcase : a < b
  · rw [dif_pos (offAt_lt es hcase hb)]
    split
    · next e he =>
      rw [parse_entry_at es tail rps hE a (by omega)] at he
      exact absurd he (by simp)
    · next k v noff hp =>
      rw [parse_entry_at es tail rps hE a (by omega)] at hp
      simp only [Except.ok.injEq, Prod.mk.injEq] at hp
      obtain ⟨hk, hv, hnoff⟩ := hp
      subst hk
      subst hv
      subst hnoff
      rw [if_neg (hne a (by omega) hcase)]
      by_cases hgt : bytesCmp (entAt es a).1 target = .gt
      · rw [if_pos hgt]
      · rw [if_neg hgt]
        exact scanFrom_none es tail rps hE target b (a + 1) (by omega) hb
          (fun i h1 h2 => hne i (by omega) h2)
  · have heq : a = b := by omega
    subst heq
    rw [dif_neg (lt_irrefl _)]
termination_by b - a
decreasing_by omega

/-- Scanning a window containing the target entry (keys ascending)
yields its value. -/
theorem scanFrom_found (es : List (Bytes × Bytes)) (tail : Bytes) (rps : List Nat)
    (hE : (encAll es).length < 4294967296) (hasc : keysAsc es) (t b a : Nat)
    (hat : a ≤ t) (htb : t < b) (hb : b ≤ es.length) :
    Block.scanFrom { data := encAll es ++ tail, restart_points := rps } (entAt es t).1
      (offAt es b) (offAt es a) = .ok (some (entAt es t).2) := by
  unfold Block.scanFrom
  rw [dif_pos (offAt_lt es (by omega) hb)]
  split
  · next e he =>
    rw [parse_entry_at es tail rps hE a (by omega)] at he
    exact absurd he (by simp)
  · next k v noff hp =>
    rw [parse_entry_at es tail rps hE a (by omega)] at hp
    simp only [Except.ok.injEq, Prod.mk.injEq] at hp
    obtain ⟨hk, hv, hnoff⟩ := hp
    subst hk
    subst hv
    subst hnoff
    by_cases hta : a = t
    · subst hta
      rw [if_pos rfl]
    · have hlt : bytesCmp (entAt es a).1 (entAt es t).1 = .lt :=
        keysAsc_lt hasc (by omega) (by omega)
      rw [if_neg (by
        intro hkt
        rw [hkt, bytesCmp_refl] at hlt
        cases hlt)]
      rw [if_neg (by
        intro hgt
        rw [hlt] at hgt
        cases hgt)]
      exact scanFrom_found es tail rps hE hasc t b (a + 1) (by omega) htb hb
termination_by t - a
decreasing_by omega

/-- `find_restart_point` loop: when every listed restart key exceeds
the target, the incoming `result` is returned. -/
theorem frpAux_all_gt (blk : Block) (target : Bytes) (offs : List Nat) (i res : Nat)
    (h : ∀ off ∈ offs, ∃ kv, blk.parse_entry off = .ok kv ∧ bytesCmp kv.1 target = .gt) :
    frpAux blk target offs i res = .ok res := by
  cases offs with
  | nil => rfl
  | cons o os =>
    obtain ⟨kv, hkv, hgt⟩ := h o (by simp)
    obtain ⟨key, value, noff⟩ := kv
    unfold frpAux
    rw [hkv]
    dsimp only
    rw [if_neg (not_not_intro hgt)]

/-- `find_restart_point` loop: the walk lands on the last restart key
that does not exceed the target. -/
theorem frpAux_split (blk : Block) (target : Bytes) (offs₁ : List Nat) (off₀ : Nat)
    (offs₂ : List Nat) (i res : Nat)
    (h₁ : ∀ off ∈ offs₁, ∃ kv, blk.parse_entry off = .ok kv ∧ bytesCmp kv.1 target ≠ .gt)
    (h₀ : ∃ kv, blk.parse_entry off₀ = .ok kv ∧ bytesCmp kv.1 target ≠ .gt)
    (h₂ : ∀ off ∈ offs₂, ∃ kv, blk.parse_entry off = .ok kv ∧ bytesCmp kv.1 target = .gt) :
    frpAux blk target (offs₁ ++ off₀ :: offs₂) i res = .ok (i + offs₁.length) := by
  induction offs₁ generalizing i res with
  | nil =>
    obtain ⟨kv, hkv, hle⟩ := h₀
    obtain ⟨key, value, noff⟩ := kv
    rw [List.nil_append]
    unfold frpAux
    rw [hkv]
    dsimp only
    rw [if_pos hle]
    rw [frpAux_all_gt blk target offs₂ (i + 1) i h₂]
    simp
  | cons o os ih =>
    obtain ⟨kv, hkv, hle⟩ := h₁ o (by simp)
    obtain ⟨key, value, noff⟩ := kv
    rw [List.cons_append]
    unfold frpAux
    rw [hkv]
    dsimp only
    rw [if_pos hle]
    rw [ih (i + 1) i (fun off hoff => h₁ off (by simp [hoff]))]
    simp only [List.length_cons]
    congr 1
    omega

/-- `find_restart_point` loop: with every listed offset parseable, the
walk never errors and the result is the seed or lies in the index
range. -/
theorem frpAux_bound (blk : Block) (target : Bytes) (offs : List Nat) (i res : Nat)
    (h : ∀ off ∈ offs, ∃ kv, blk.parse_entry off = .ok kv) :
    ∃ r, frpAux blk target offs i res = .ok r ∧
      (r = res ∨ (i ≤ r ∧ r < i + offs.length)) := by
  induction offs generalizing i res with
  | nil => exact ⟨res, rfl, Or.inl rfl⟩
  | cons o os ih =>
    obtain ⟨kv, hkv⟩ := h o (by simp)
    obtain ⟨key, value, noff⟩ := kv
    by_cases hgt : bytesCmp key target = .gt
    · refine ⟨res, ?_, Or.inl rfl⟩
      unfold frpAux
      rw [hkv]
      dsimp only
      rw [if_neg (not_not_intro hgt)]
    · obtain ⟨r, hr, hcase⟩ := ih (i + 1) i (fun off hoff => h off (by simp [hoff]))
      refine ⟨r, ?_, ?_⟩
      · unfold frpAux
        rw [hkv]
        dsimp only
        rw [if_pos hgt]
        exact hr
      · rcases hcase with rfl | ⟨h1, h2⟩
        · right
          simp only [List.length_cons]
          omega
        · right
          simp only [List.length_cons]
          omega

theorem rpIdx_eq : ∀ n : Nat, rpIdx n = (List.range ((n + 15) / 16)).map (fun j => 16 * j)
  | 0 => rfl
  | n + 1 => by
    have ih := rpIdx_eq n
    unfold rpIdx at ih ⊢
    rw [List.range_succ, List.filter_append, ih]
    by_cases h : n % 16 = 0
    · rw [show (n + 1 + 15) / 16 = (n + 15) / 16 + 1 by omega]
      rw [List.range_succ, List.map_append]
      congr 1
      have h16 : 16 * ((n + 15) / 16) = n := by omega
      simp [h, h16]
    · rw [show (n + 1 + 15) / 16 = (n + 15) / 16 by omega]
      simp [List.filter, h]

theorem rpSpec_eq (es : List (Bytes × Bytes)) (hne : es ≠ []) :
    rpSpec es =
      (List.range ((es.length + 15) / 16)).map (fun j => offAt es (16 * j)) := by
  unfold rpSpec
  rw [if_neg (by simpa [List.isEmpty_iff] using hne)]
  rw [rpIdx_eq, List.map_map]
  rfl

theorem flatten_le32_length (rs : List Nat) :
    ((rs.map le32).flatten).length = 4 * rs.length := by
  induction rs with
  | nil => rfl
  | cons r t ih =>
    simp only [List.map_cons, List.flatten_cons, List.length_append, le32_length, ih,
      List.length_cons]
    omega

theorem read4_eq_readLe32 (data : Bytes) (i : Nat) (h : i + 4 ≤ data.length) :
    read4 data i = some (readLe32 data i) := by
  unfold read4 readLe32
  rw [List.getElem?_eq_getElem (show i < data.length by omega),
    List.getElem?_eq_getElem (show i + 1 < data.length by omega),
    List.getElem?_eq_getElem (show i + 2 < data.length by omega),
    List.getElem?_eq_getElem (show i + 3 < data.length by omega)]
  dsimp only
  rw [List.getD_eq_getElem data 0 (show i < data.length by omega),
    List.getD_eq_getElem data 0 (show i + 1 < data.length by omega),
    List.getD_eq_getElem data 0 (show i + 2 < data.length by omega),
    List.getD_eq_getElem data 0 (show i + 3 < data.length by omega)]

theorem read4_at (xs zs : Bytes) (m : Nat) :
    read4 (xs ++ le32 m ++ zs) xs.length = some (m % 4294967296) := by
  rw [read4_eq_readLe32 _ _ (by simp), readLe32_at]

theorem read4_at' (xs : Bytes) (m : Nat) :
    read4 (xs ++ le32 m) xs.length = some (m % 4294967296) := by
  have := read4_at xs [] m
  rwa [List.append_nil] at this

theorem readRestarts_le32s : ∀ (rs : List Nat) (xs zs : Bytes),
    readRestarts (xs ++ (rs.map le32).flatten ++ zs) xs.length rs.length =
      some (rs.map (fun r => r % 4294967296))
  | [], xs, zs => by simp [readRestarts]
  | r :: rs', xs, zs => by
    have hdata : xs ++ ((r :: rs').map le32).flatten ++ zs =
        (xs ++ le32 r) ++ (rs'.map le32).flatten ++ zs := by
      simp [List.append_assoc]
    have hdata2 : xs ++ ((r :: rs').map le32).flatten ++ zs =
        xs ++ le32 r ++ ((rs'.map le32).flatten ++ zs) := by
      simp [List.append_assoc]
    have h1 : read4 (xs ++ ((r :: rs').map le32).flatten ++ zs) xs.length =
        some (r % 4294967296) := by
      rw [hdata2]
      exact read4_at xs ((rs'.map le32).flatten ++ zs) r
    have h2 : readRestarts (xs ++ ((r :: rs').map le32).flatten ++ zs)
        (xs.length + 4) rs'.length = some (rs'.map (fun r => r % 4294967296)) := by
      rw [hdata]
      have := readRestarts_le32s rs' (xs ++ le32 r) zs
      rwa [List.length_append, le32_length] at this
    show readRestarts (xs ++ ((r :: rs').map le32).flatten ++ zs) xs.length
      (rs'.length + 1) = some ((r :: rs').map (fun r => r % 4294967296))
    unfold readRestarts
    rw [h1, h2]
    rfl

/-- `Block::from_bytes` on a well-formed encoded block recovers the
restart points. -/
theorem from_bytes_encoded (E : Bytes) (rps : List Nat)
    (hrps : ∀ r ∈ rps, r < 4294967296)
    (hcnt : rps.length ≠ 0) (hcnt32 : rps.length < 4294967296) :
    Block.from_bytes (E ++ (rps.map le32).flatten ++ le32 rps.length) =
      .ok { data := E ++ (rps.map le32).flatten ++ le32 rps.length,
            restart_points := rps } := by
  set D := E ++ (rps.map le32).flatten ++ le32 rps.length with hDdef
  have hD : D.length = E.length + 4 * rps.length + 4 := by
    rw [hDdef, List.length_append, List.length_append, flatten_le32_length, le32_length]
  have hread : read4 D (D.length - 4) = some rps.length := by
    have hlen : (E ++ (rps.map le32).flatten).length = D.length - 4 := by
      rw [List.length_append, flatten_le32_length]
      omega
    have := read4_at' (E ++ (rps.map le32).flatten) rps.length
    rw [hlen, Nat.mod_eq_of_lt hcnt32] at this
    exact this
  have hrest : readRestarts D E.length rps.length = some rps := by
    have := readRestarts_le32s rps E (le32 rps.length)
    rw [show rps.map (fun r => r % 4294967296) = rps from
      List.map_congr_left (fun r hr => Nat.mod_eq_of_lt (hrps r hr)) |>.trans (List.map_id rps)]
      at this
    exact this
  unfold Block.from_bytes
  rw [if_neg (by omega)]
  dsimp only
  rw [hread]
  dsimp only
  rw [if_neg hcnt]
  rw [show usizeSub (D.length - 4) (rps.length * 4) = E.length by
    rw [usizeSub_of_le (by omega)]
    omega]
  rw [if_neg (by omega)]
  rw [hrest]

theorem offAt_append (es ts : List (Bytes × Bytes)) (i : Nat) (hi : i ≤ es.length) :
    offAt (es ++ ts) i = offAt es i := by
  unfold offAt
  rw [List.take_append_of_le_length hi]

theorem cntSpec_snoc (es : List (Bytes × Bytes)) (e : Bytes × Bytes) :
    cntSpec (es ++ [e]) = es.length % 16 + 1 := by
  unfold cntSpec
  rw [List.length_append]
  rfl

theorem rpSpec_snoc_push (es : List (Bytes × Bytes)) (e : Bytes × Bytes)
    (hn0 : es.length ≠ 0) (h16 : es.length % 16 = 0) :
    rpSpec (es ++ [e]) = rpSpec es ++ [(encAll es).length] := by
  rw [rpSpec_eq (es ++ [e]) (by simp), rpSpec_eq es (by rintro rfl; simp at hn0)]
  rw [List.length_append, List.length_cons, List.length_nil]
  rw [show (es.length + 0 + 1 + 15) / 16 = (es.length + 15) / 16 + 1 by omega]
  rw [List.range_succ, List.map_append]
  congr 1
  · apply List.map_congr_left
    intro j hj
    rw [List.mem_range] at hj
    exact offAt_append es [e] (16 * j) (by omega)
  · simp only [List.map_cons, List.map_nil]
    rw [show 16 * ((es.length + 15) / 16) = es.length by omega]
    rw [offAt_append es [e] es.length (by omega), offAt_full]

theorem rpSpec_snoc_keep (es : List (Bytes × Bytes)) (e : Bytes × Bytes)
    (h : es.length = 0 ∨ es.length % 16 ≠ 0) :
    rpSpec (es ++ [e]) = rpSpec es := by
  rcases h with h0 | h16
  · have : es = [] := List.length_eq_zero.mp h0
    subst this
    rfl
  · rw [rpSpec_eq (es ++ [e]) (by simp),
      rpSpec_eq es (by rintro rfl; simp at h16)]
    rw [List.length_append, List.length_cons, List.length_nil]
    rw [show (es.length + 0 + 1 + 15) / 16 = (es.length + 15) / 16 by omega]
    apply List.map_congr_left
    intro j hj
    rw [List.mem_range] at hj
    exact offAt_append es [e] (16 * j) (by omega)

theorem add_isOk (b : BlockBuilder) (k v : Bytes) :
    ∃ p, BlockBuilder.add b k v = .ok p := by
  unfold BlockBuilder.add
  dsimp only
  split
  · exact ⟨_, rfl⟩
  · exact ⟨_, rfl⟩

theorem addAllOk_single (b : BlockBuilder) (e : Bytes × Bytes) (b' : BlockBuilder)
    (r : Bool) (hadd : BlockBuilder.add b e.1 e.2 = .ok (b', r)) :
    addAllOk b [e] = (b', r) := by
  unfold addAllOk
  rw [hadd]
  simp [addAllOk]

theorem addAllOk_append (b : BlockBuilder) (xs ys : List (Bytes × Bytes)) :
    addAllOk b (xs ++ ys) =
      ((addAllOk (addAllOk b xs).1 ys).1,
        (addAllOk b xs).2 && (addAllOk (addAllOk b xs).1 ys).2) := by
  induction xs generalizing b with
  | nil => simp [addAllOk]
  | cons e t ih =>
    obtain ⟨⟨b', r⟩, hadd⟩ := add_isOk b e.1 e.2
    have hstep : ∀ zs, addAllOk b (e :: zs) =
        ((addAllOk b' zs).1, r && (addAllOk b' zs).2) := by
      intro zs
      rw [addAllOk, hadd]
    rw [List.cons_append, hstep (t ++ ys), hstep t]
    rw [ih b']
    simp [Bool.and_assoc]

theorem cntSpec_mod (es : List (Bytes × Bytes)) (h : cntSpec es < 16) :
    cntSpec es = es.length % 16 := by
  unfold cntSpec at h ⊢
  cases hn : es.length with
  | zero => rfl
  | succ m =>
    rw [hn] at h
    dsimp only at h ⊢
    omega

theorem builderInv_step (es : List (Bytes × Bytes)) (e : Bytes × Bytes)
    (b b' : BlockBuilder) (r : Bool) (hinv : builderInv es b)
    (hadd : BlockBuilder.add b e.1 e.2 = .ok (b', r)) (hr : r = true) :
    builderInv (es ++ [e]) b' := by
  obtain ⟨hdata, hrp, hcnt, hint, hsize⟩ := hinv
  have hE32 : (encAll es).length < 4294967296 := by
    rw [← hdata]
    unfold BLOCK_SIZE at hsize
    omega
  unfold BlockBuilder.add at hadd
  dsimp only at hadd
  split at hadd
  · rw [hr] at hadd
    simp at hadd
  · next hfit =>
    by_cases hc : b.counter ≥ b.restart_interval
    · rw [if_pos hc] at hadd
      simp only [Except.ok.injEq, Prod.mk.injEq] at hadd
      obtain ⟨hb', -⟩ := hadd
      subst hb'
      rw [hcnt, hint] at hc
      have hn : es.length ≠ 0 ∧ es.length % 16 = 0 := by
        unfold cntSpec at hc
        cases hn : es.length with
        | zero =>
          rw [hn] at hc
          dsimp only at hc
          omega
        | succ m =>
          rw [hn] at hc
          dsimp only at hc
          omega
      refine ⟨?_, ?_, ?_, ?_, ?_⟩
      · dsimp only
        rw [hdata, encAll_append]
        rw [show encAll [e] = encE e.1 e.2 ++ [] from rfl, List.append_nil]
        simp [encE, List.append_assoc]
      · dsimp only
        rw [hrp, hdata, Nat.mod_eq_of_lt hE32]
        exact (rpSpec_snoc_push es e hn.1 hn.2).symm
      · dsimp only
        rw [cntSpec_snoc]
        omega
      · dsimp only
        exact hint
      · dsimp only
        simp only [List.length_append, le32_length, List.length_cons, List.length_nil]
        omega
    · rw [if_neg hc] at hadd
      simp only [Except.ok.injEq, Prod.mk.injEq] at hadd
      obtain ⟨hb', -⟩ := hadd
      subst hb'
      rw [hcnt, hint] at hc
      have hlt : cntSpec es < 16 := by omega
      have hn : es.length = 0 ∨ es.length % 16 ≠ 0 := by
        have hmod := cntSpec_mod es hlt
        unfold cntSpec at hmod
        cases hn : es.length with
        | zero => exact Or.inl rfl
        | succ m =>
          right
          rw [hn] at hmod
          dsimp only at hmod
          omega
      refine ⟨?_, ?_, ?_, ?_, ?_⟩
      · dsimp only
        rw [hdata, encAll_append]
        rw [show encAll [e] = encE e.1 e.2 ++ [] from rfl, List.append_nil]
        simp [encE, List.append_assoc]
      · dsimp only
        rw [hrp]
        exact (rpSpec_snoc_keep es e hn).symm
      · dsimp only
        rw [hcnt, cntSpec_snoc, cntSpec_mod es hlt]
      · dsimp only
        exact hint
      · dsimp only
        simp only [List.length_append, le32_length, List.length_cons, List.length_nil]
        omega

theorem builderInv_of_accepted (es : List (Bytes × Bytes)) (hacc : accepted es) :
    builderInv es (buildOf es) := by
  induction es using List.reverseRecOn with
  | nil =>
    refine ⟨rfl, rfl, rfl, rfl, by decide⟩
  | append_singleton es e ih =>
    obtain ⟨⟨b', r⟩, hadd⟩ := add_isOk (buildOf es) e.1 e.2
    have hone := addAllOk_single (buildOf es) e b' r hadd
    have hsplit := addAllOk_append BlockBuilder.new es [e]
    unfold accepted at hacc
    rw [hsplit] at hacc
    rw [show (addAllOk BlockBuilder.new es).1 = buildOf es from rfl, hone] at hacc
    dsimp only at hacc
    rw [Bool.and_eq_true] at hacc
    have hacc1 : accepted es := hacc.1
    have hr : r = true := hacc.2
    have hbuild : buildOf (es ++ [e]) = b' := by
      unfold buildOf
      rw [hsplit]
      rw [show (addAllOk BlockBuilder.new es).1 = buildOf es from rfl, hone]
    rw [hbuild]
    exact builderInv_step es e (buildOf es) b' r (ih hacc1) hadd hr

/-- The four raw reads of entry `i` in the encoded entry section. -/
theorem entry_reads (es : List (Bytes × Bytes)) (tail : Bytes)
    (hE : (encAll es).length < 4294967296) (i : Nat) (hi : i < es.length) :
    readLe32 (encAll es ++ tail) (offAt es i) = (entAt es i).1.length ∧
    readLe32 (encAll es ++ tail) (offAt es i + 4) = (entAt es i).2.length ∧
    bslice (encAll es ++ tail) (offAt es i + 8)
      (offAt es i + 8 + (entAt es i).1.length) = (entAt es i).1 ∧
    bslice (encAll es ++ tail) (offAt es i + 8 + (entAt es i).1.length)
      (offAt es i + 8 + (entAt es i).1.length + (entAt es i).2.length) = (entAt es i).2 := by
  have hdec := encAll_decomp es i hi
  have hsucc := offAt_succ es i hi
  have hoffP : offAt es i = (encAll (es.take i)).length := rfl
  have hfull : offAt es (i + 1) ≤ (encAll es).length := by
    rw [← offAt_full]
    exact offAt_le es (by omega)
  have hkl : (entAt es i).1.length < 4294967296 := by omega
  have hvl : (entAt es i).2.length < 4294967296 := by omega
  set P := encAll (es.take i) with hP
  set k := (entAt es i).1 with hkdef
  set v := (entAt es i).2 with hvdef
  set R := encAll (es.drop (i + 1)) with hR
  have hd1 : encAll es ++ tail =
      (P ++ le32 k.length) ++ (le32 v.length ++ (k ++ (v ++ (R ++ tail)))) := by
    rw [hdec]
    simp [encE, List.append_assoc]
  have hd2 : encAll es ++ tail =
      ((P ++ le32 k.length) ++ le32 v.length) ++ (k ++ (v ++ (R ++ tail))) := by
    rw [hdec]
    simp [encE, List.append_assoc]
  have hd3 : encAll es ++ tail =
      (((P ++ le32 k.length) ++ le32 v.length) ++ k) ++ (v ++ (R ++ tail)) := by
    rw [hdec]
    simp [encE, List.append_assoc]
  have hd4 : encAll es ++ tail =
      ((((P ++ le32 k.length) ++ le32 v.length) ++ k) ++ v) ++ (R ++ tail) := by
    rw [hdec]
    simp [encE, List.append_assoc]
  have hx2 : (P ++ le32 k.length).length = offAt es i + 4 := by
    rw [List.length_append, le32_length, hoffP]
  have hQ : ((P ++ le32 k.length) ++ le32 v.length).length = offAt es i + 8 := by
    rw [List.length_append, le32_length, hx2]
  have hQ' : (((P ++ le32 k.length) ++ le32 v.length) ++ k).length =
      offAt es i + 8 + k.length := by
    rw [List.length_append, hQ]
  refine ⟨?_, ?_, ?_, ?_⟩
  · rw [hd1, hoffP]
    exact (readLe32_at P (le32 v.length ++ (k ++ (v ++ (R ++ tail)))) k.length).trans
      (Nat.mod_eq_of_lt hkl)
  · rw [hd2, ← hx2]
    exact (readLe32_at (P ++ le32 k.length) (k ++ (v ++ (R ++ tail))) v.length).trans
      (Nat.mod_eq_of_lt hvl)
  · have := bslice_at ((P ++ le32 k.length) ++ le32 v.length) k (v ++ (R ++ tail))
    rw [hQ] at this
    rw [hd3]
    exact this
  · have := bslice_at (((P ++ le32 k.length) ++ le32 v.length) ++ k) v (R ++ tail)
    rw [hQ'] at this
    rw [hd4]
    exact this

/-- The block iterator walks the encoded entry section from entry `a`
to the end, yielding exactly `es.drop a`. -/
theorem iterFrom_drop (es : List (Bytes × Bytes)) (tail : Bytes)
    (hE : (encAll es).length < 4294967296) (a : Nat) (ha : a ≤ es.length) :
    iterFrom (encAll es ++ tail) (offAt es es.length) (offAt es a) =
      .ok (es.drop a) := by
  by_cases hcase : a < es.length
  · obtain ⟨h1, h2, h3, h4⟩ := entry_reads es tail hE a hcase
    have hsucc := offAt_succ es a hcase
    have hfull : offAt es (a + 1) ≤ (encAll es).length := by
      rw [← offAt_full]
      exact offAt_le es (by omega)
    unfold iterFrom
    rw [dif_pos (offAt_lt es hcase (le_refl _))]
    rw [if_neg (show ¬ (offAt es a + 8 > (encAll es ++ tail).length) by
      rw [List.length_append]; omega)]
    dsimp only
    rw [h1, h2]
    rw [if_neg (show ¬ (offAt es a + 8 + (entAt es a).1.length + (entAt es a).2.length >
        offAt es es.length) by rw [offAt_full]; omega)]
    rw [h3, h4]
    rw [show offAt es a + 8 + (entAt es a).1.length + (entAt es a).2.length =
      offAt es (a + 1) by omega]
    rw [iterFrom_drop es tail hE (a + 1) (by omega)]
    rw [List.drop_eq_getElem_cons hcase]
    unfold entAt
    rw [List.getD_eq_getElem es ([], []) hcase]
  · have heq : a = es.length := by omega
    subst heq
    unfold iterFrom
    rw [dif_neg (lt_irrefl _), List.drop_length]
termination_by es.length - a
decreasing_by omega

/-- `find_restart_point` on the target's own key: lands on restart
slot `t / 16`. -/
theorem frp_found (es : List (Bytes × Bytes)) (tail : Bytes)
    (hE : (encAll es).length < 4294967296) (hasc : keysAsc es) (hne : es ≠ [])
    (t : Nat) (ht : t < es.length) :
    Block.find_restart_point { data := encAll es ++ tail, restart_points := rpSpec es }
      (entAt es t).1 = .ok (t / 16) := by
  set n := es.length with hn
  set R := (n + 15) / 16 with hR
  set q := t / 16 with hq
  set f : Nat → Nat := fun j => offAt es (16 * j) with hf
  have hqR : q < R := by omega
  have hRn : ∀ j, j < R → 16 * j < n := by intro j hj; omega
  unfold Block.find_restart_point
  dsimp only
  rw [rpSpec_eq es hne]
  rw [show (List.range ((es.length + 15) / 16)).map f =
      (List.range q).map f ++ f q ::
        ((List.range (R - q - 1)).map (fun x => f (q + 1 + x))) by
    rw [show (es.length + 15) / 16 = (q + 1) + (R - q - 1) by omega]
    rw [List.range_add, List.range_succ]
    simp only [List.map_append, List.map_map, List.map_cons, List.map_nil,
      List.append_assoc, List.singleton_append]
    rfl]
  rw [frpAux_split _ _ _ _ _ _ _
    (by
      intro off hoff
      rw [List.mem_map] at hoff
      obtain ⟨j, hj, rfl⟩ := hoff
      rw [List.mem_range] at hj
      refine ⟨_, parse_entry_at es tail (rpSpec es) hE (16 * j) (by omega), ?_⟩
      have hlt : bytesCmp (entAt es (16 * j)).1 (entAt es t).1 = .lt :=
        keysAsc_lt hasc (by omega) ht
      dsimp only
      rw [hlt]
      intro hcontra
      cases hcontra)
    (by
      refine ⟨_, parse_entry_at es tail (rpSpec es) hE (16 * q) (by omega), ?_⟩
      dsimp only
      by_cases hqt : 16 * q = t
      · rw [hqt, bytesCmp_refl]
        intro hcontra
        cases hcontra
      · have hlt : bytesCmp (entAt es (16 * q)).1 (entAt es t).1 = .lt :=
          keysAsc_lt hasc (by omega) ht
        rw [hlt]
        intro hcontra
        cases hcontra)
    (by
      intro off hoff
      rw [List.mem_map] at hoff
      obtain ⟨x, hx, rfl⟩ := hoff
      rw [List.mem_range] at hx
      refine ⟨_, parse_entry_at es tail (rpSpec es) hE (16 * (q + 1 + x)) (by omega), ?_⟩
      dsimp only
      rw [bytesCmp_swap]
      exact keysAsc_lt hasc (by omega) (by omega))]
  rw [List.length_map, List.length_range]
  rw [Nat.zero_add]

/-- `find_restart_point` always succeeds on an encoded block, with the
result indexing a genuine restart slot. -/
theorem frp_bound (es : List (Bytes × Bytes)) (tail : Bytes)
    (hE : (encAll es).length < 4294967296) (hne : es ≠ []) (target : Bytes) :
    ∃ r, Block.find_restart_point
        { data := encAll es ++ tail, restart_points := rpSpec es } target = .ok r ∧
      r < (es.length + 15) / 16 := by
  set n := es.length with hn
  have hn0 : n ≠ 0 := by
    intro h
    exact hne (List.length_eq_zero.mp h)
  unfold Block.find_restart_point
  dsimp only
  rw [rpSpec_eq es hne]
  obtain ⟨r, hr, hcase⟩ := frpAux_bound
    { data := encAll es ++ tail,
      restart_points :=
        (List.range ((es.length + 15) / 16)).map (fun j => offAt es (16 * j)) } target
    ((List.range ((es.length + 15) / 16)).map (fun j => offAt es (16 * j))) 0 0 (by
    intro off hoff
    rw [List.mem_map] at hoff
    obtain ⟨j, hj, rfl⟩ := hoff
    rw [List.mem_range] at hj
    exact ⟨_, parse_entry_at es tail
      ((List.range ((es.length + 15) / 16)).map (fun j => offAt es (16 * j)))
      hE (16 * j) (by omega)⟩)
  refine ⟨r, hr, ?_⟩
  rw [List.length_map, List.length_range] at hcase
  rcases hcase with rfl | ⟨h1, h2⟩
  · omega
  · omega

/-- `entries_end` of an encoded block is the length of the entry
section. -/
theorem entriesEnd_encoded (E : Bytes) (rps : List Nat) :
    Block.entriesEnd
      { data := E ++ ((rps.map le32).flatten ++ le32 rps.length),
        restart_points := rps } = E.length := by
  unfold Block.entriesEnd
  dsimp only
  rw [List.length_append, List.length_append, flatten_le32_length, le32_length]
  rw [show usizeSub (E.length + (4 * rps.length + 4)) (rps.length * 4) =
      E.length + 4 by rw [usizeSub_of_le (by omega)]; omega]
  rw [usizeSub_of_le (by omega)]
  omega

/-- `Block::get` finds every stored entry. -/
theorem block_get_found (es : List (Bytes × Bytes)) (tail : Bytes)
    (hE : (encAll es).length < 4294967296) (hasc : keysAsc es) (hne : es ≠ [])
    (t : Nat) (ht : t < es.length)
    (hEnd : Block.entriesEnd { data := encAll es ++ tail, restart_points := rpSpec es } =
      offAt es es.length) :
    Block.get { data := encAll es ++ tail, restart_points := rpSpec es }
      (entAt es t).1 = .ok (some (entAt es t).2) := by
  have hgetD : ∀ j, j < (es.length + 15) / 16 →
      ((List.range ((es.length + 15) / 16)).map (fun j => offAt es (16 * j))).getD j 0 =
        offAt es (16 * j) := by
    intro j hj
    rw [List.getD_eq_getElem _ _ (by simpa using hj)]
    simp
  unfold Block.get
  rw [frp_found es tail hE hasc hne t ht]
  dsimp only
  rw [rpSpec_eq es hne] at hEnd ⊢
  rw [List.length_map, List.length_range]
  by_cases hq1 : t / 16 + 1 < (es.length + 15) / 16
  · rw [if_pos hq1, hgetD (t / 16) (by omega), hgetD (t / 16 + 1) hq1]
    exact scanFrom_found es tail _ hE hasc t (16 * (t / 16 + 1)) (16 * (t / 16))
      (by omega) (by omega) (by omega)
  · rw [if_neg hq1, hEnd, hgetD (t / 16) (by omega)]
    exact scanFrom_found es tail _ hE hasc t es.length (16 * (t / 16))
      (by omega) (by omega) (by omega)

/-- `Block::get` returns `None` for any absent key. -/
theorem block_get_none (es : List (Bytes × Bytes)) (tail : Bytes)
    (hE : (encAll es).length < 4294967296) (hne : es ≠ []) (target : Bytes)
    (hnk : target ∉ es.map Prod.fst)
    (hEnd : Block.entriesEnd { data := encAll es ++ tail, restart_points := rpSpec es } =
      offAt es es.length) :
    Block.get { data := encAll es ++ tail, restart_points := rpSpec es } target =
      .ok none := by
  have hn0 : es.length ≠ 0 := by
    intro h
    exact hne (List.length_eq_zero.mp h)
  have hgetD : ∀ j, j < (es.length + 15) / 16 →
      ((List.range ((es.length + 15) / 16)).map (fun j => offAt es (16 * j))).getD j 0 =
        offAt es (16 * j) := by
    intro j hj
    rw [List.getD_eq_getElem _ _ (by simpa using hj)]
    simp
  have hkeys : ∀ i lo hi, lo ≤ i → i < hi → hi ≤ es.length →
      (entAt es i).1 ≠ target := by
    intro i lo hi h1 h2 h3 hcontra
    apply hnk
    rw [← hcontra]
    unfold entAt
    rw [List.getD_eq_getElem es ([], []) (by omega)]
    exact List.mem_map_of_mem Prod.fst (List.getElem_mem _)
  obtain ⟨r, hr, hrR⟩ := frp_bound es tail hE hne target
  unfold Block.get
  rw [hr]
  dsimp only
  rw [rpSpec_eq es hne] at hEnd ⊢
  rw [List.length_map, List.length_range]
  by_cases hr1 : r + 1 < (es.length + 15) / 16
  · rw [if_pos hr1, hgetD r hrR, hgetD (r + 1) hr1]
    exact scanFrom_none es tail _ hE target (16 * (r + 1)) (16 * r) (by omega) (by omega)
      (fun i h1 h2 => hkeys i (16 * r) (16 * (r + 1)) h1 h2 (by omega))
  · rw [if_neg hr1, hEnd, hgetD r hrR]
    exact scanFrom_none es tail _ hE target es.length (16 * r) (by omega) (by omega)
      (fun i h1 h2 => hkeys i (16 * r) es.length h1 h2 (by omega))

theorem finish_shape (es : List (Bytes × Bytes)) (hacc : accepted es) :
    BlockBuilder.finish (buildOf es) =
      { data := encAll es ++
          (((rpSpec es).map le32).flatten ++ le32 (rpSpec es).length),
        restart_points := rpSpec es } := by
  obtain ⟨hdata, hrp, -, -, -⟩ := builderInv_of_accepted es hacc
  unfold BlockBuilder.finish
  rw [hdata, hrp, List.append_assoc]

theorem encoded_size_facts (es : List (Bytes × Bytes)) (hacc : accepted es) :
    (encAll es).length + 4 * (rpSpec es).length + 4 ≤ 4096 := by
  obtain ⟨hdata, hrp, -, -, hsize⟩ := builderInv_of_accepted es hacc
  rw [hdata, hrp] at hsize
  unfold BLOCK_SIZE at hsize
  exact hsize

theorem rpSpec_length_pos (es : List (Bytes × Bytes)) : (rpSpec es).length ≠ 0 := by
  unfold rpSpec
  split
  · simp
  · next h =>
    rw [List.length_map, rpIdx_eq, List.length_map, List.length_range]
    have : es.length ≠ 0 := by
      intro h0
      rw [List.isEmpty_iff] at h
      exact h (List.length_eq_zero.mp h0)
    omega

theorem rpSpec_mem_le (es : List (Bytes × Bytes)) :
    ∀ r ∈ rpSpec es, r ≤ (encAll es).length := by
  unfold rpSpec
  split
  · intro r hr
    rw [List.mem_singleton] at hr
    subst hr
    omega
  · intro r hr
    rw [List.mem_map] at hr
    obtain ⟨i, hi, rfl⟩ := hr
    exact offAt_le_length es i

theorem from_bytes_encoded' (E : Bytes) (rps : List Nat)
    (hrps : ∀ r ∈ rps, r < 4294967296)
    (hcnt : rps.length ≠ 0) (hcnt32 : rps.length < 4294967296) :
    Block.from_bytes (E ++ ((rps.map le32).flatten ++ le32 rps.length)) =
      .ok { data := E ++ ((rps.map le32).flatten ++ le32 rps.length),
            restart_points := rps } := by
  rw [← List.append_assoc]
  rw [from_bytes_encoded E rps hrps hcnt hcnt32]

/-- C4 (amended): for every NONEMPTY strictly ascending sequence of
key/value pairs all accepted by `BlockBuilder::add`, `Block::from_bytes`
on the finished block's bytes returns that very block, `get` returns
`Some(v)` for every inserted `(k, v)` and `None` for every key not
inserted, and `iter` yields exactly the inserted pairs in order.  (The
empty sequence, allowed by the claim as stated, instead makes `get`
error: see the counterexample.) -/
theorem block_roundtrip_amended (es : List (Bytes × Bytes))
    (hacc : accepted es) (hasc : keysAsc es) (hne : es ≠ []) :
    Block.from_bytes ((BlockBuilder.finish (buildOf es)).data) =
      .ok (BlockBuilder.finish (buildOf es)) ∧
    (∀ p ∈ es, (BlockBuilder.finish (buildOf es)).get p.1 = .ok (some p.2)) ∧
    (∀ target : Bytes, target ∉ es.map Prod.fst →
      (BlockBuilder.finish (buildOf es)).get target = .ok none) ∧
    (BlockBuilder.finish (buildOf es)).iterAll = .ok es := by
  have hsz := encoded_size_facts es hacc
  have hE32 : (encAll es).length < 4294967296 := by omega
  have hshape := finish_shape es hacc
  have hEnd : Block.entriesEnd
      { data := encAll es ++ (((rpSpec es).map le32).flatten ++ le32 (rpSpec es).length),
        restart_points := rpSpec es } = offAt es es.length := by
    rw [entriesEnd_encoded (encAll es) (rpSpec es), offAt_full]
  refine ⟨?_, ?_, ?_, ?_⟩
  · rw [hshape]
    dsimp only
    exact from_bytes_encoded' (encAll es) (rpSpec es)
      (fun r hr => lt_of_le_of_lt (rpSpec_mem_le es r hr) hE32)
      (rpSpec_length_pos es) (by omega)
  · intro p hp
    obtain ⟨t, ht, hpt⟩ := List.mem_iff_getElem.mp hp
    rw [hshape]
    have hfound := block_get_found es
      (((rpSpec es).map le32).flatten ++ le32 (rpSpec es).length)
      hE32 hasc hne t ht hEnd
    rw [show entAt es t = p by
      unfold entAt
      rw [List.getD_eq_getElem es ([], []) ht]
      exact hpt] at hfound
    exact hfound
  · intro target hnk
    rw [hshape]
    exact block_get_none es
      (((rpSpec es).map le32).flatten ++ le32 (rpSpec es).length)
      hE32 hne target hnk hEnd
  · rw [hshape]
    unfold Block.iterAll
    dsimp only
    rw [hEnd]
    have hiter := iterFrom_drop es
      (((rpSpec es).map le32).flatten ++ le32 (rpSpec es).length) hE32 0 (by omega)
    rw [offAt_zero, List.drop_zero] at hiter
    exact hiter

/-- C4 counterexample: the empty sequence is vacuously ascending and
all-accepted, yet `get` on the finished empty block returns
`Err(Corrupted("Entry extends beyond block"))` - the claim's "None for
every key not inserted" fails for the empty block. -/
theorem block_roundtrip_counterexample :
    accepted ([] : List (Bytes × Bytes)) ∧ keysAsc ([] : List (Bytes × Bytes)) ∧
    (BlockBuilder.finish (buildOf [])).get [0] =
      .error (.corrupted "Entry extends beyond block") := by
  refine ⟨by decide, by decide, by decide⟩

/-- C4 witness: the amended theorem applied to the two-entry sequence
`[([1],[10]), ([2],[20])]`, with every hypothesis decided. -/
theorem block_roundtrip_amended_witness :
    accepted [([1], [10]), ([2], [20])] ∧ keysAsc [([1], [10]), ([2], [20])] ∧
    ([([1], [10]), ([2], [20])] : List (Bytes × Bytes)) ≠ [] ∧
    (Block.from_bytes ((BlockBuilder.finish (buildOf [([1], [10]), ([2], [20])])).data) =
      .ok (BlockBuilder.finish (buildOf [([1], [10]), ([2], [20])])) ∧
    (∀ p ∈ ([([1], [10]), ([2], [20])] : List (Bytes × Bytes)),
      (BlockBuilder.finish (buildOf [([1], [10]), ([2], [20])])).get p.1 = .ok (some p.2)) ∧
    (∀ target : Bytes, target ∉ ([([1], [10]), ([2], [20])] : List (Bytes × Bytes)).map Prod.fst →
      (BlockBuilder.finish (buildOf [([1], [10]), ([2], [20])])).get target = .ok none) ∧
    (BlockBuilder.finish (buildOf [([1], [10]), ([2], [20])])).iterAll =
      .ok [([1], [10]), ([2], [20])]) :=
  ⟨by decide, by decide, by decide,
    block_roundtrip_amended [([1], [10]), ([2], [20])] (by decide) (by decide) (by decide)⟩
